import Mathlib

/-
  Verification of the rundler user-operation pool and transaction tracker.

  The definitions below are a shallow embedding of the Rust sources:
    crates/pool/src/mempool/pool.rs        (PoolInner and its operations)
    crates/builder/src/transaction_tracker.rs
    crates/pool/src/server/local.rs        (chain-update handling order)
  Collaborator components whose sources are not part of the sampled tree
  (PaymasterTracker, EntityCounter, SizeTracker, PoolOperation metadata,
  math::increase_by_percent) are modelled from the specification and marked
  as such in their doc comments.

  Machine integers: all Rust integer types (u64, U256, usize) are modelled
  as Nat; the signed size counter (isize in SizeTracker) is modelled as Int.
  None of the verified operations exercise integer overflow.
-/

namespace Rundler

abbrev Address := Nat

abbrev Hash := Nat

/-- Fields of a user operation used by the pool (spec data model section 3). -/
structure UserOperation where
  sender : Address
  nonce : Nat
  max_fee_per_gas : Nat
  max_priority_fee_per_gas : Nat
  paymaster : Option Address
  factory : Option Address
  aggregator : Option Address
deriving DecidableEq, Repr

/-- Identity of a user operation: the (sender, nonce) pair. -/
structure UserOperationId where
  sender : Address
  nonce : Nat
deriving DecidableEq, Repr

def UserOperation.id (uo : UserOperation) : UserOperationId :=
  ⟨uo.sender, uo.nonce⟩

inductive EntityType
  | sender
  | factory
  | paymaster
  | aggregator
deriving DecidableEq, Repr

structure Entity where
  kind : EntityType
  address : Address
deriving DecidableEq, Repr

structure ValidTimeRange where
  valid_after : Nat
  valid_until : Nat
deriving DecidableEq, Repr

/-- Modelled from the spec: PoolOperation is a UserOperation plus metadata
(valid time range, simulation block number, estimated mem size in bytes).
The per-kind entity addresses are read off the user operation itself; the
staked flags of entity_infos play no role in the verified operations. -/
structure PoolOperation where
  uo : UserOperation
  valid_time_range : ValidTimeRange
  sim_block_number : Nat
  mem_size : Nat
deriving DecidableEq, Repr

/-- Modelled from the spec: entities() is a small fixed enumeration per op,
the sender plus up to three non-sender entities declared by the operation. -/
def PoolOperation.entities (po : PoolOperation) : List Entity :=
  ⟨.sender, po.uo.sender⟩ ::
    ((po.uo.factory.map fun a => ⟨.factory, a⟩).toList ++
     (po.uo.paymaster.map fun a => ⟨.paymaster, a⟩).toList ++
     (po.uo.aggregator.map fun a => ⟨.aggregator, a⟩).toList)

def PoolOperation.contains_entity (po : PoolOperation) (e : Entity) : Bool :=
  decide (e ∈ po.entities)

/-- Wrapper around PoolOperation adding a submission id, mirroring
OrderedPoolOperation in pool.rs. -/
structure OrderedPoolOperation where
  po : PoolOperation
  submission_id : Nat
deriving DecidableEq, Repr

def OrderedPoolOperation.uo (o : OrderedPoolOperation) : UserOperation :=
  o.po.uo

/-- std mem size of the OrderedPoolOperation struct itself (an Arc pointer
plus a u64 on a 64-bit platform); the exact value is irrelevant to every
claim, only that it is a fixed constant. -/
def orderedPoolOperationBaseSize : Nat := 16

def OrderedPoolOperation.mem_size (o : OrderedPoolOperation) : Nat :=
  orderedPoolOperationBaseSize + o.po.mem_size

/-- The Ord instance of OrderedPoolOperation in pool.rs: gas price
descending, then submission id ascending. -/
def opCmp (a b : OrderedPoolOperation) : Ordering :=
  if b.uo.max_fee_per_gas < a.uo.max_fee_per_gas then .lt
  else if a.uo.max_fee_per_gas < b.uo.max_fee_per_gas then .gt
  else if a.submission_id < b.submission_id then .lt
  else if b.submission_id < a.submission_id then .gt
  else .eq

/-- BTreeSet insert over the sorted list model: keep ascending opCmp order;
an element comparing equal to a present one is not inserted (BTreeSet keeps
the existing element). -/
def btreeInsert (x : OrderedPoolOperation) :
    List OrderedPoolOperation → List OrderedPoolOperation
  | [] => [x]
  | y :: ys =>
    match opCmp x y with
    | .lt => x :: y :: ys
    | .eq => y :: ys
    | .gt => y :: btreeInsert x ys

/-- BTreeSet remove over the sorted list model: drop the (unique) element
comparing equal to x, if present. -/
def btreeRemove (x : OrderedPoolOperation) :
    List OrderedPoolOperation → List OrderedPoolOperation
  | [] => []
  | y :: ys => if opCmp x y = .eq then ys else y :: btreeRemove x ys

/-- Association-list lookup, modelling HashMap::get. -/
def alookup {α β : Type} [DecidableEq α] : List (α × β) → α → Option β
  | [], _ => none
  | (k, v) :: ps, a => if k = a then some v else alookup ps a

/-- Association-list erase of the binding for a key, modelling
HashMap::remove; keys are kept without duplicates by construction. -/
def aerase {α β : Type} [DecidableEq α] (a : α) : List (α × β) → List (α × β)
  | [] => []
  | (k, v) :: ps => if k = a then ps else (k, v) :: aerase a ps

/-- Association-list insert, modelling HashMap::insert (replaces any
existing binding for the key). -/
def ainsert {α β : Type} [DecidableEq α] (a : α) (b : β) (m : List (α × β)) :
    List (α × β) :=
  (a, b) :: aerase a m

/-- Fields of a mined operation used by the pool (the chain module is not
part of the sampled tree; fields are those read in pool.rs). -/
structure MinedOp where
  paymaster : Option Address
  actual_gas_cost : Nat
  hash : Hash
  entry_point : Address
  sender : Address
  nonce : Nat
deriving DecidableEq, Repr

def MinedOp.id (m : MinedOp) : UserOperationId :=
  ⟨m.sender, m.nonce⟩

/-- Modelled from the spec: per-address counts by entity kind
(EntityCounter of entity_tracker.rs, not in the sampled tree). -/
structure EntityCounter where
  sender : Nat
  factory : Nat
  paymaster : Nat
  aggregator : Nat
deriving DecidableEq, Repr

instance : Inhabited EntityCounter := ⟨⟨0, 0, 0, 0⟩⟩

def EntityCounter.increment_entity_count (ec : EntityCounter) (k : EntityType) :
    EntityCounter :=
  match k with
  | .sender => { ec with sender := ec.sender + 1 }
  | .factory => { ec with factory := ec.factory + 1 }
  | .paymaster => { ec with paymaster := ec.paymaster + 1 }
  | .aggregator => { ec with aggregator := ec.aggregator + 1 }

def EntityCounter.decrement_entity_count (ec : EntityCounter) (k : EntityType) :
    EntityCounter :=
  match k with
  | .sender => { ec with sender := ec.sender - 1 }
  | .factory => { ec with factory := ec.factory - 1 }
  | .paymaster => { ec with paymaster := ec.paymaster - 1 }
  | .aggregator => { ec with aggregator := ec.aggregator - 1 }

def EntityCounter.total (ec : EntityCounter) : Nat :=
  ec.sender + ec.factory + ec.paymaster + ec.aggregator

def EntityCounter.includes_non_sender (ec : EntityCounter) : Bool :=
  decide (0 < ec.factory + ec.paymaster + ec.aggregator)

/-- Modelled from the spec: confirmed plus pending-debit balance of one
paymaster (PaymasterTracker of paymaster.rs, not in the sampled tree). -/
structure PaymasterBalance where
  confirmed_balance : Nat
  pending_debit : Nat
deriving DecidableEq, Repr

/-- Modelled from the spec: the paymaster balance ledger; the per-op
contribution is recorded so removal and un-mining can undo a cost. -/
structure PaymasterTracker where
  tracking_enabled : Bool
  balances : List (Address × PaymasterBalance)
  op_costs : List (UserOperationId × (Address × Nat))
deriving DecidableEq, Repr

/-- Paymaster metadata passed into an admission (address plus its
confirmed balance as last observed). -/
structure PaymasterMetadata where
  address : Address
  confirmed_balance : Nat
deriving DecidableEq, Repr

inductive MempoolError
  | OperationAlreadyKnown
  | ReplacementUnderpriced (priority_fee : Nat) (max_fee : Nat)
  | DiscardedOnInsert
  | PaymasterBalanceTooLow
  | Other (msg : String)
deriving DecidableEq, Repr

instance {ε α : Type} [DecidableEq ε] [DecidableEq α] :
    DecidableEq (Except ε α) := fun x y =>
  match x, y with
  | .error a, .error b =>
    if h : a = b then .isTrue (by rw [h])
    else .isFalse fun hc => h (by injection hc)
  | .error _, .ok _ => .isFalse fun hc => Except.noConfusion hc
  | .ok _, .error _ => .isFalse fun hc => Except.noConfusion hc
  | .ok a, .ok b =>
    if h : a = b then .isTrue (by rw [h])
    else .isFalse fun hc => h (by injection hc)

/-- Modelled from the spec: remove_operation releases the reservation the
given op holds, if any. -/
def PaymasterTracker.remove_operation (pt : PaymasterTracker)
    (id : UserOperationId) : PaymasterTracker :=
  match alookup pt.op_costs id with
  | none => pt
  | some (p, cost) =>
    let balances :=
      match alookup pt.balances p with
      | none => pt.balances
      | some pb =>
        ainsert p { pb with pending_debit := pb.pending_debit - cost } pt.balances
    { pt with op_costs := aerase id pt.op_costs, balances := balances }

/-- The environment of injected collaborators: the operation hasher
H(op, entry point, chain id) and the per-op max gas cost reserved by the
paymaster tracker (both opaque to the pool sources). -/
structure Env where
  hasher : UserOperation → Address → Nat → Hash
  max_cost : PoolOperation → Nat

/-- Modelled from the spec: reserve pending_debit += max_cost(op); fail
with PaymasterBalanceTooLow if the reservation would make the available
balance negative; on replacement the previous contribution of the same op
id is rolled back first; when tracking is disabled admission always
succeeds and the ledger is untouched. -/
def PaymasterTracker.add_or_update_balance (env : Env) (pt : PaymasterTracker)
    (op : PoolOperation) (meta : PaymasterMetadata) :
    Except MempoolError PaymasterTracker :=
  if pt.tracking_enabled = false then .ok pt
  else
    let pt := pt.remove_operation op.uo.id
    match op.uo.paymaster with
    | none => .ok pt
    | some p =>
      let pb := (alookup pt.balances p).getD ⟨meta.confirmed_balance, 0⟩
      let cost := env.max_cost op
      if pb.confirmed_balance < pb.pending_debit + cost then
        .error .PaymasterBalanceTooLow
      else
        .ok { pt with
              balances :=
                ainsert p { pb with pending_debit := pb.pending_debit + cost }
                  pt.balances,
              op_costs := ainsert op.uo.id (p, cost) pt.op_costs }

/-- Modelled from the spec: a mined op decreases the confirmed balance of
its paymaster by the actual cost and releases its pending reservation. -/
def PaymasterTracker.update_paymaster_balance_from_mined_op
    (pt : PaymasterTracker) (m : MinedOp) : PaymasterTracker :=
  if pt.tracking_enabled = false then pt
  else
    match m.paymaster with
    | none => pt
    | some p =>
      let pt := pt.remove_operation m.id
      match alookup pt.balances p with
      | none => pt
      | some pb =>
        { pt with
          balances :=
            ainsert p
              { pb with confirmed_balance := pb.confirmed_balance - m.actual_gas_cost }
              pt.balances }

/-- Modelled from the spec: unmine_actual_cost undoes a prior mined debit
on reorg. -/
def PaymasterTracker.unmine_actual_cost (pt : PaymasterTracker)
    (p : Address) (cost : Nat) : PaymasterTracker :=
  if pt.tracking_enabled = false then pt
  else
    match alookup pt.balances p with
    | none => pt
    | some pb =>
      { pt with
        balances :=
          ainsert p { pb with confirmed_balance := pb.confirmed_balance + cost }
            pt.balances }

/-- Modelled from the spec: metadata lookup; absence when tracking is
disabled or the paymaster is unknown. -/
def PaymasterTracker.paymaster_metadata (pt : PaymasterTracker)
    (p : Address) : Option PaymasterMetadata :=
  if pt.tracking_enabled = false then none
  else (alookup pt.balances p).map fun pb => ⟨p, pb.confirmed_balance⟩

/-- Modelled from the spec: math::increase_by_percent, the
ceiling-of-percent replacement arithmetic x + ceil(x * r) with
r = percent / 100. -/
def increase_by_percent (x : Nat) (percent : Nat) : Nat :=
  x + (x * percent + 99) / 100

/-- Pool configuration (PoolInnerConfig in pool.rs). -/
structure PoolInnerConfig where
  entry_point : Address
  chain_id : Nat
  max_size_of_pool_bytes : Nat
  min_replacement_fee_increase_percentage : Nat
  throttled_entity_mempool_count : Nat
  throttled_entity_live_blocks : Nat
  paymaster_tracking_enabled : Bool
deriving DecidableEq, Repr

/-- The pool state (PoolInner in pool.rs). The three live indexes are
by_hash, by_id and best; the two cache indexes back the reorg cache. -/
structure PoolInner where
  config : PoolInnerConfig
  by_hash : List (Hash × OrderedPoolOperation)
  by_id : List (UserOperationId × OrderedPoolOperation)
  best : List OrderedPoolOperation
  mined_at_block_number_by_hash : List (Hash × (OrderedPoolOperation × Nat))
  mined_hashes_with_block_numbers : List (Nat × Hash)
  count_by_address : List (Address × EntityCounter)
  submission_id : Nat
  paymaster_balances : PaymasterTracker
  pool_size : Int
  cache_size : Int
deriving DecidableEq, Repr

def PoolInner.new (config : PoolInnerConfig) : PoolInner :=
  { config := config
    by_hash := []
    by_id := []
    best := []
    mined_at_block_number_by_hash := []
    mined_hashes_with_block_numbers := []
    count_by_address := []
    submission_id := 0
    paymaster_balances := ⟨config.paymaster_tracking_enabled, [], []⟩
    pool_size := 0
    cache_size := 0 }

/-- The op hash under the pool configuration. -/
def opHashOf (env : Env) (cfg : PoolInnerConfig) (uo : UserOperation) : Hash :=
  env.hasher uo cfg.entry_point cfg.chain_id

/-- The hash under which an ordered pool operation is indexed. -/
def hashOfOp (env : Env) (cfg : PoolInnerConfig) (o : OrderedPoolOperation) : Hash :=
  opHashOf env cfg o.uo

def PoolInner.get_min_replacement_fees (s : PoolInner) (uo : UserOperation) :
    Nat × Nat :=
  (increase_by_percent uo.max_priority_fee_per_gas
      s.config.min_replacement_fee_increase_percentage,
   increase_by_percent uo.max_fee_per_gas
      s.config.min_replacement_fee_increase_percentage)

/-- check_replacement of pool.rs: reject a hash already present; when the
same UserOpId is present require both fees to clear the replacement
thresholds, otherwise fail ReplacementUnderpriced with the existing fees. -/
def PoolInner.check_replacement (env : Env) (s : PoolInner)
    (op : UserOperation) : Except MempoolError (Option Hash) :=
  if (alookup s.by_hash (opHashOf env s.config op)).isSome then
    .error .OperationAlreadyKnown
  else
    match alookup s.by_id op.id with
    | some pool_op =>
      let fees := s.get_min_replacement_fees pool_op.uo
      if op.max_priority_fee_per_gas < fees.1 ∨ op.max_fee_per_gas < fees.2 then
        .error (.ReplacementUnderpriced pool_op.uo.max_priority_fee_per_gas
          pool_op.uo.max_fee_per_gas)
      else
        .ok (some (opHashOf env s.config pool_op.uo))
    | none => .ok none

/-- decrement_address_count of pool.rs, as a transformation of the count
map: decrement the per-kind count and drop the entry when its total hits
zero. -/
def decrementCount (m : List (Address × EntityCounter)) (a : Address)
    (k : EntityType) : List (Address × EntityCounter) :=
  match alookup m a with
  | none => m
  | some ec =>
    let ec := ec.decrement_entity_count k
    if ec.total = 0 then aerase a m else ainsert a ec m

/-- remove_operation_internal of pool.rs: drop the op stored under the
hash from every live index, release its paymaster reservation, optionally
move it into the reorg cache, update counts and the size counter. -/
def PoolInner.remove_operation_internal (s : PoolInner) (hash : Hash)
    (block_number : Option Nat) : Option PoolOperation × PoolInner :=
  match alookup s.by_hash hash with
  | none => (none, s)
  | some op =>
    let s := { s with
      by_hash := aerase hash s.by_hash
      by_id := aerase op.uo.id s.by_id
      best := btreeRemove op s.best
      paymaster_balances := s.paymaster_balances.remove_operation op.uo.id }
    let s :=
      match block_number with
      | some bn =>
        { s with
          cache_size := s.cache_size + (op.mem_size : Int)
          mined_at_block_number_by_hash :=
            ainsert hash (op, bn) s.mined_at_block_number_by_hash
          mined_hashes_with_block_numbers :=
            if (bn, hash) ∈ s.mined_hashes_with_block_numbers then
              s.mined_hashes_with_block_numbers
            else (bn, hash) :: s.mined_hashes_with_block_numbers }
      | none => s
    let s := { s with
      count_by_address := op.po.entities.foldl
        (fun (m : List (Address × EntityCounter)) (e : Entity) =>
          decrementCount m e.address e.kind) s.count_by_address }
    (some op.po, { s with pool_size := s.pool_size - (op.mem_size : Int) })

def PoolInner.remove_operation_by_hash (s : PoolInner) (hash : Hash) :
    Option PoolOperation × PoolInner :=
  s.remove_operation_internal hash none

/-- One iteration bound of the enforce_size loop; running out of fuel with
the size bound still exceeded is reported as an internal error (the Rust
loop would keep popping, and the pool invariant makes the fuel
sufficient). -/
def PoolInner.enforce_size_go (env : Env) :
    Nat → PoolInner → List Hash → Except String (List Hash) × PoolInner
  | 0, s, removed =>
    if s.pool_size > (s.config.max_size_of_pool_bytes : Int) then
      (.error "enforce size ran out of fuel", s)
    else (.ok removed, s)
  | fuel + 1, s, removed =>
    if s.pool_size > (s.config.max_size_of_pool_bytes : Int) then
      match s.best.getLast? with
      | none => (.ok removed, s)
      | some worst =>
        let s := { s with best := s.best.dropLast }
        let hash := hashOfOp env s.config worst
        match s.remove_operation_internal hash none with
        | (none, s) => (.error "should have removed the worst operation", s)
        | (some _, s) => s.enforce_size_go env fuel (removed ++ [hash])
    else (.ok removed, s)

/-- enforce_size of pool.rs: while the pool exceeds its byte bound, pop the
last (worst) element of best and remove it, collecting evicted hashes. -/
def PoolInner.enforce_size (env : Env) (s : PoolInner) :
    Except String (List Hash) × PoolInner :=
  s.enforce_size_go env (s.best.length + 1) []

def incrementCount (m : List (Address × EntityCounter)) (e : Entity) :
    List (Address × EntityCounter) :=
  ainsert e.address
    (((alookup m e.address).getD default).increment_entity_count e.kind) m

/-- The tail of add_operation_internal once the submission id is fixed:
update entity counts, insert the ordered op into the three live indexes,
account its size, then enforce the size bound; fail DiscardedOnInsert when
the op itself was among the evictions. -/
def PoolInner.add_insert (env : Env) (s : PoolInner) (op : PoolOperation)
    (sid : Nat) : Except MempoolError Hash × PoolInner :=
  let pool_op : OrderedPoolOperation := ⟨op, sid⟩
  let s := { s with
    count_by_address :=
      pool_op.po.entities.foldl incrementCount s.count_by_address }
  let hash := hashOfOp env s.config pool_op
  let s := { s with
    pool_size := s.pool_size + (pool_op.mem_size : Int)
    by_hash := ainsert hash pool_op s.by_hash
    by_id := ainsert pool_op.uo.id pool_op s.by_id
    best := btreeInsert pool_op s.best }
  match s.enforce_size env with
  | (.error msg, s) => (.error (.Other msg), s)
  | (.ok removed, s) =>
    if hash ∈ removed then (.error .DiscardedOnInsert, s)
    else (.ok hash, s)

/-- Submission id assignment of add_operation_internal: a preserved id is
reused, otherwise the monotonic counter is consumed. -/
def PoolInner.add_finish (env : Env) (s : PoolInner) (op : PoolOperation)
    (submission_id : Option Nat) : Except MempoolError Hash × PoolInner :=
  match submission_id with
  | some i => s.add_insert env op i
  | none =>
    ({ s with submission_id := s.submission_id + 1 }).add_insert env op
      s.submission_id

/-- The paymaster reservation step of add_operation_internal followed by
the insert (see add_finish). -/
def PoolInner.add_rest (env : Env) (s : PoolInner) (op : PoolOperation)
    (submission_id : Option Nat) (paymaster_meta : Option PaymasterMetadata) :
    Except MempoolError Hash × PoolInner :=
  match (match paymaster_meta with
         | some meta => s.paymaster_balances.add_or_update_balance env op meta
         | none => .ok s.paymaster_balances) with
  | .error e => (.error e, s)
  | .ok pb =>
    ({ s with paymaster_balances := pb }).add_finish env op submission_id

/-- add_operation_internal of pool.rs: check (and perform) replacement,
reserve the paymaster balance, then assign the submission id and insert
(see add_rest, add_finish and add_insert). -/
def PoolInner.add_operation_internal (env : Env) (s : PoolInner)
    (op : PoolOperation) (submission_id : Option Nat)
    (paymaster_meta : Option PaymasterMetadata) :
    Except MempoolError Hash × PoolInner :=
  match s.check_replacement env op.uo with
  | .error e => (.error e, s)
  | .ok replaced =>
    let s :=
      match replaced with
      | some h => (s.remove_operation_by_hash h).2
      | none => s
    s.add_rest env op submission_id paymaster_meta

/-- add_operation of pool.rs (metrics updates are side-effect free here). -/
def PoolInner.add_operation (env : Env) (s : PoolInner) (op : PoolOperation)
    (paymaster_meta : Option PaymasterMetadata) :
    Except MempoolError Hash × PoolInner :=
  s.add_operation_internal env op none paymaster_meta

def PoolInner.best_operations (s : PoolInner) : List PoolOperation :=
  s.best.map (·.po)

def PoolInner.get_operation_by_hash (s : PoolInner) (hash : Hash) :
    Option PoolOperation :=
  (alookup s.by_hash hash).map (·.po)

/-- mine_operation of pool.rs: look up by UserOpId, notify the paymaster
ledger of the actual cost, then remove from the live indexes into the
reorg cache. Note: the hash is computed with the entry point carried by
the mined op. -/
def PoolInner.mine_operation (env : Env) (s : PoolInner) (mined_op : MinedOp)
    (block_number : Nat) : Option PoolOperation × PoolInner :=
  match alookup s.by_id mined_op.id with
  | none => (none, s)
  | some tx_in_pool =>
    let hash := env.hasher tx_in_pool.uo mined_op.entry_point s.config.chain_id
    let s := { s with
      paymaster_balances :=
        s.paymaster_balances.update_paymaster_balance_from_mined_op mined_op }
    s.remove_operation_internal hash (some block_number)

/-- put_back_unmined_operation of pool.rs: reverse the mined paymaster
debit, then re-admit with the original submission id. -/
def PoolInner.put_back_unmined_operation (env : Env) (s : PoolInner)
    (op : OrderedPoolOperation) (mined_op : MinedOp) :
    Except MempoolError Hash × PoolInner :=
  let meta_s : Option PaymasterMetadata × PoolInner :=
    match op.uo.paymaster with
    | some p =>
      let s := { s with
        paymaster_balances :=
          s.paymaster_balances.unmine_actual_cost p mined_op.actual_gas_cost }
      (s.paymaster_balances.paymaster_metadata p, s)
    | none => (none, s)
  meta_s.2.add_operation_internal env op.po (some op.submission_id) meta_s.1

/-- unmine_operation of pool.rs: drop the cache entry, attempt to put the
op back (a failure is only logged), and return the original op. -/
def PoolInner.unmine_operation (env : Env) (s : PoolInner) (mined_op : MinedOp) :
    Option PoolOperation × PoolInner :=
  match alookup s.mined_at_block_number_by_hash mined_op.hash with
  | none => (none, s)
  | some (op, block_number) =>
    let s := { s with
      mined_at_block_number_by_hash :=
        aerase mined_op.hash s.mined_at_block_number_by_hash
      mined_hashes_with_block_numbers :=
        s.mined_hashes_with_block_numbers.filter
          (fun p => decide (p ≠ (block_number, mined_op.hash))) }
    let s := (s.put_back_unmined_operation env op mined_op).2
    (some op.po, s)

/-- The filter of throttle_entity in pool.rs: walking best in priority
order, an op using the entity is selected for removal when it is stale
(sim block + live blocks behind head) or the keep budget is exhausted;
kept non-stale uses decrement the budget. -/
def throttleFilter (cfg : PoolInnerConfig) (entity : Entity) (head : Nat) :
    List OrderedPoolOperation → Nat → List OrderedPoolOperation
  | [], _ => []
  | o :: os, uos_kept =>
    if o.po.contains_entity entity then
      if o.po.sim_block_number + cfg.throttled_entity_live_blocks < head ∨
          uos_kept = 0 then
        o :: throttleFilter cfg entity head os uos_kept
      else throttleFilter cfg entity head os (uos_kept - 1)
    else throttleFilter cfg entity head os uos_kept

/-- throttle_entity of pool.rs. -/
def PoolInner.throttle_entity (env : Env) (s : PoolInner) (entity : Entity)
    (current_block_number : Nat) : List Hash × PoolInner :=
  let to_remove :=
    (throttleFilter s.config entity current_block_number s.best
        s.config.throttled_entity_mempool_count).map (hashOfOp env s.config)
  let s := to_remove.foldl
    (fun s h => (s.remove_operation_internal h none).2) s
  (to_remove, s)

/-- Specification predicate for C6: an operation counts as stale for the
throttle when its simulation block plus the live-block allowance is behind
the head. -/
def throttleStale (cfg : PoolInnerConfig) (head : Nat)
    (o : OrderedPoolOperation) : Bool :=
  decide (o.po.sim_block_number + cfg.throttled_entity_live_blocks < head)

/-- Specification list for C6: the first k non-stale users of the entity
in best order, the ones the throttle keeps. -/
def throttleKeep (cfg : PoolInnerConfig) (entity : Entity) (head : Nat)
    (l : List OrderedPoolOperation) (k : Nat) : List OrderedPoolOperation :=
  (l.filter fun o =>
    o.po.contains_entity entity && !(throttleStale cfg head o)).take k

/-- Specification predicate for C6, following the claim: the throttle
removes exactly the users of the entity that are stale or beyond the keep
budget. -/
def throttleRemoves (cfg : PoolInnerConfig) (entity : Entity) (head : Nat)
    (l : List OrderedPoolOperation) (k : Nat) (o : OrderedPoolOperation) :
    Bool :=
  o.po.contains_entity entity &&
    (throttleStale cfg head o ||
      !(decide (o ∈ throttleKeep cfg entity head l k)))

/-! ## Order lemmas for opCmp -/

/-- The strict order underlying the best index: a sorts strictly before b. -/
def opLt (a b : OrderedPoolOperation) : Prop := opCmp a b = .lt

instance (a b : OrderedPoolOperation) : Decidable (opLt a b) := by
  unfold opLt; infer_instance

theorem opCmp_self (a : OrderedPoolOperation) : opCmp a a = .eq := by
  unfold opCmp; simp

theorem opCmp_eq_iff {a b : OrderedPoolOperation} :
    opCmp a b = .eq ↔
      a.uo.max_fee_per_gas = b.uo.max_fee_per_gas ∧
        a.submission_id = b.submission_id := by
  unfold opCmp; split_ifs <;> simp <;> omega

theorem opCmp_lt_iff {a b : OrderedPoolOperation} :
    opCmp a b = .lt ↔
      (b.uo.max_fee_per_gas < a.uo.max_fee_per_gas ∨
        (a.uo.max_fee_per_gas = b.uo.max_fee_per_gas ∧
          a.submission_id < b.submission_id)) := by
  unfold opCmp; split_ifs <;> simp <;> omega

theorem opCmp_gt_iff {a b : OrderedPoolOperation} :
    opCmp a b = .gt ↔ opCmp b a = .lt := by
  unfold opCmp; split_ifs <;> simp <;> omega

theorem opCmp_eq_symm {a b : OrderedPoolOperation} (h : opCmp a b = .eq) :
    opCmp b a = .eq := by
  rw [opCmp_eq_iff] at h ⊢; omega

theorem opLt_trans {a b c : OrderedPoolOperation} (h1 : opLt a b)
    (h2 : opLt b c) : opLt a c := by
  unfold opLt at *; rw [opCmp_lt_iff] at h1 h2 ⊢; omega

theorem opLt_irrefl (a : OrderedPoolOperation) : ¬ opLt a a := by
  unfold opLt; rw [opCmp_lt_iff]; omega

theorem opLt_ne {a b : OrderedPoolOperation} (h : opLt a b) : a ≠ b := by
  rintro rfl; exact opLt_irrefl a h

theorem opLt_asymm {a b : OrderedPoolOperation} (h : opLt a b) : ¬ opLt b a := by
  unfold opLt at *; rw [opCmp_lt_iff] at h ⊢; omega

theorem opCmp_cases (a b : OrderedPoolOperation) :
    opCmp a b = .lt ∨ opCmp a b = .eq ∨ opCmp a b = .gt := by
  rcases h : opCmp a b <;> simp

theorem opLt_of_ne_sid {a b : OrderedPoolOperation}
    (h : a.submission_id ≠ b.submission_id) : opLt a b ∨ opLt b a := by
  unfold opLt; rw [opCmp_lt_iff, opCmp_lt_iff]; omega

theorem opCmp_ne_eq_of_ne_sid {a b : OrderedPoolOperation}
    (h : a.submission_id ≠ b.submission_id) : opCmp a b ≠ .eq := by
  intro hc; rw [opCmp_eq_iff] at hc; omega

theorem sorted_nodup {l : List OrderedPoolOperation}
    (h : l.Pairwise opLt) : l.Nodup :=
  h.imp opLt_ne

/-! ## Association list lemmas -/

section AList

variable {α β : Type} [DecidableEq α]

def akeys (m : List (α × β)) : List α := m.map Prod.fst

theorem aerase_sublist (a : α) (m : List (α × β)) :
    List.Sublist (aerase a m) m := by
  induction m with
  | nil => simp [aerase]
  | cons p ps ih =>
    obtain ⟨k, v⟩ := p
    simp only [aerase]
    split
    · exact (List.sublist_cons_self _ _)
    · exact ih.cons₂ _

theorem mem_of_mem_aerase {a : α} {m : List (α × β)} {p : α × β}
    (h : p ∈ aerase a m) : p ∈ m :=
  (aerase_sublist a m).subset h

theorem mem_aerase_of_mem_ne {a : α} {m : List (α × β)} {p : α × β}
    (hp : p ∈ m) (hne : p.1 ≠ a) : p ∈ aerase a m := by
  induction m with
  | nil => simp at hp
  | cons q qs ih =>
    obtain ⟨k, v⟩ := q
    simp only [aerase]
    rcases List.mem_cons.mp hp with rfl | hmem
    · simp only [ne_eq] at hne
      rw [if_neg hne]
      exact List.mem_cons_self _ _
    · split
      · exact hmem
      · exact List.mem_cons_of_mem _ (ih hmem)

theorem ne_of_mem_aerase {a : α} {m : List (α × β)} {p : α × β}
    (nd : (akeys m).Nodup) (h : p ∈ aerase a m) : p.1 ≠ a := by
  induction m with
  | nil => simp [aerase] at h
  | cons q qs ih =>
    obtain ⟨k, v⟩ := q
    simp only [akeys, List.map_cons, List.nodup_cons] at nd
    simp only [aerase] at h
    split at h
    · rename_i hk
      subst hk
      intro hpa
      exact nd.1 (hpa ▸ List.mem_map_of_mem Prod.fst h)
    · rename_i hk
      rcases List.mem_cons.mp h with rfl | hmem
      · exact hk
      · exact ih nd.2 hmem

theorem mem_aerase_iff {a : α} {m : List (α × β)} {p : α × β}
    (nd : (akeys m).Nodup) : p ∈ aerase a m ↔ p ∈ m ∧ p.1 ≠ a :=
  ⟨fun h => ⟨mem_of_mem_aerase h, ne_of_mem_aerase nd h⟩,
   fun ⟨h1, h2⟩ => mem_aerase_of_mem_ne h1 h2⟩

theorem akeys_aerase_sublist (a : α) (m : List (α × β)) :
    List.Sublist (akeys (aerase a m)) (akeys m) :=
  (aerase_sublist a m).map Prod.fst

theorem akeys_aerase_nodup {a : α} {m : List (α × β)}
    (nd : (akeys m).Nodup) : (akeys (aerase a m)).Nodup :=
  nd.sublist (akeys_aerase_sublist a m)

theorem alookup_eq_none_iff {m : List (α × β)} {a : α} :
    alookup m a = none ↔ a ∉ akeys m := by
  induction m with
  | nil => simp [alookup, akeys]
  | cons p ps ih =>
    obtain ⟨k, v⟩ := p
    simp only [alookup, akeys, List.map_cons, List.mem_cons]
    split
    · rename_i hk; subst hk; simp
    · rename_i hk
      simp only [akeys] at ih
      rw [ih]
      constructor
      · intro h hc
        rcases hc with rfl | hmem
        · exact hk rfl
        · exact h hmem
      · intro h hmem
        exact h (Or.inr hmem)

theorem alookup_mem {m : List (α × β)} {a : α} {b : β}
    (h : alookup m a = some b) : (a, b) ∈ m := by
  induction m with
  | nil => simp [alookup] at h
  | cons p ps ih =>
    obtain ⟨k, v⟩ := p
    simp only [alookup] at h
    split at h
    · rename_i hk
      subst hk
      simp only [Option.some.injEq] at h
      subst h
      exact List.mem_cons_self _ _
    · exact List.mem_cons_of_mem _ (ih h)

theorem alookup_eq_some_of_mem {m : List (α × β)} {a : α} {b : β}
    (nd : (akeys m).Nodup) (h : (a, b) ∈ m) : alookup m a = some b := by
  induction m with
  | nil => simp at h
  | cons p ps ih =>
    obtain ⟨k, v⟩ := p
    simp only [akeys, List.map_cons, List.nodup_cons] at nd
    simp only [alookup]
    rcases List.mem_cons.mp h with heq | hmem
    · rw [Prod.mk.injEq] at heq
      obtain ⟨rfl, rfl⟩ := heq
      simp
    · split
      · rename_i hk
        subst hk
        exact absurd (List.mem_map_of_mem Prod.fst hmem) nd.1
      · exact ih nd.2 hmem

theorem alookup_aerase_self {a : α} {m : List (α × β)}
    (nd : (akeys m).Nodup) : alookup (aerase a m) a = none := by
  rw [alookup_eq_none_iff]
  intro hmem
  obtain ⟨p, hp, hpa⟩ := List.mem_map.mp hmem
  exact ne_of_mem_aerase nd hp hpa

theorem alookup_aerase_ne {a c : α} {m : List (α × β)} (h : c ≠ a) :
    alookup (aerase a m) c = alookup m c := by
  induction m with
  | nil => simp [aerase]
  | cons p ps ih =>
    obtain ⟨k, v⟩ := p
    simp only [aerase]
    split
    · rename_i hk
      subst hk
      simp only [alookup]
      rw [if_neg (fun hc : k = c => h hc.symm)]
    · simp only [alookup]
      split
      · rfl
      · exact ih

theorem alookup_ainsert_self {a : α} {b : β} {m : List (α × β)} :
    alookup (ainsert a b m) a = some b := by
  simp [ainsert, alookup]

theorem alookup_ainsert_ne {a c : α} {b : β} {m : List (α × β)} (h : c ≠ a) :
    alookup (ainsert a b m) c = alookup m c := by
  simp only [ainsert, alookup]
  rw [if_neg (fun hc : a = c => h hc.symm)]
  exact alookup_aerase_ne h

theorem akeys_ainsert_nodup {a : α} {b : β} {m : List (α × β)}
    (nd : (akeys m).Nodup) : (akeys (ainsert a b m)).Nodup := by
  simp only [ainsert, akeys, List.map_cons, List.nodup_cons]
  refine ⟨?_, akeys_aerase_nodup nd⟩
  intro hmem
  obtain ⟨p, hp, hpa⟩ := List.mem_map.mp hmem
  exact ne_of_mem_aerase nd hp hpa

theorem mem_ainsert_iff {a : α} {b : β} {m : List (α × β)} {p : α × β}
    (nd : (akeys m).Nodup) :
    p ∈ ainsert a b m ↔ p = (a, b) ∨ (p ∈ m ∧ p.1 ≠ a) := by
  simp only [ainsert, List.mem_cons]
  rw [mem_aerase_iff nd]

theorem aerase_eq_of_not_mem {a : α} {m : List (α × β)}
    (h : a ∉ akeys m) : aerase a m = m := by
  induction m with
  | nil => simp [aerase]
  | cons p ps ih =>
    obtain ⟨k, v⟩ := p
    simp only [akeys, List.map_cons, List.mem_cons, not_or] at h
    simp only [aerase]
    rw [if_neg (fun hc : k = a => h.1 hc.symm)]
    congr 1
    exact ih (by simpa [akeys] using h.2)

end AList

/-! ## BTreeSet model lemmas -/

theorem btreeRemove_sublist (x : OrderedPoolOperation)
    (l : List OrderedPoolOperation) : List.Sublist (btreeRemove x l) l := by
  induction l with
  | nil => simp [btreeRemove]
  | cons y ys ih =>
    simp only [btreeRemove]
    split
    · exact List.sublist_cons_self _ _
    · exact ih.cons₂ _

theorem btreeRemove_eq_of_no_eq {x : OrderedPoolOperation}
    {l : List OrderedPoolOperation} (h : ∀ y ∈ l, opCmp x y ≠ .eq) :
    btreeRemove x l = l := by
  induction l with
  | nil => rfl
  | cons y ys ih =>
    simp only [btreeRemove]
    rw [if_neg (h y (List.mem_cons_self _ _))]
    rw [ih (fun z hz => h z (List.mem_cons_of_mem _ hz))]

theorem btreeInsert_perm {x : OrderedPoolOperation}
    {l : List OrderedPoolOperation} (h : ∀ y ∈ l, opCmp x y ≠ .eq) :
    List.Perm (btreeInsert x l) (x :: l) := by
  induction l with
  | nil => simp [btreeInsert]
  | cons y ys ih =>
    simp only [btreeInsert]
    rcases hcmp : opCmp x y with _ | _ | _
    · exact List.Perm.refl _
    · exact absurd hcmp (h y (List.mem_cons_self _ _))
    · exact ((ih (fun z hz => h z (List.mem_cons_of_mem _ hz))).cons y).trans
        (List.Perm.swap _ _ _)

theorem btreeInsert_sorted {x : OrderedPoolOperation}
    {l : List OrderedPoolOperation} (hs : l.Pairwise opLt)
    (h : ∀ y ∈ l, opCmp x y ≠ .eq) :
    (btreeInsert x l).Pairwise opLt := by
  induction l with
  | nil => simp [btreeInsert, List.pairwise_singleton]
  | cons y ys ih =>
    rw [List.pairwise_cons] at hs
    simp only [btreeInsert]
    rcases hcmp : opCmp x y with _ | _ | _
    · rw [List.pairwise_cons]
      refine ⟨?_, List.pairwise_cons.mpr hs⟩
      intro z hz
      rcases List.mem_cons.mp hz with rfl | hmem
      · exact hcmp
      · exact opLt_trans hcmp (hs.1 z hmem)
    · exact absurd hcmp (h y (List.mem_cons_self _ _))
    · rw [List.pairwise_cons]
      constructor
      · intro z hz
        have := (btreeInsert_perm (fun z hz =>
          h z (List.mem_cons_of_mem _ hz))).mem_iff.mp hz
        rcases List.mem_cons.mp this with rfl | hmem
        · exact (opCmp_gt_iff.mp hcmp :)
        · exact hs.1 z hmem
      · exact ih hs.2 (fun z hz => h z (List.mem_cons_of_mem _ hz))

theorem btreeRemove_perm {x : OrderedPoolOperation}
    {l : List OrderedPoolOperation} (hs : l.Pairwise opLt) (hx : x ∈ l) :
    List.Perm l (x :: btreeRemove x l) := by
  induction l with
  | nil => simp at hx
  | cons y ys ih =>
    rw [List.pairwise_cons] at hs
    simp only [btreeRemove]
    split
    · rename_i heq
      have hxy : x = y := by
        rcases List.mem_cons.mp hx with rfl | hmem
        · rfl
        · have hlt := hs.1 x hmem
          unfold opLt at hlt
          rw [opCmp_lt_iff] at hlt
          rw [opCmp_eq_iff] at heq
          omega
      subst hxy
      exact List.Perm.refl _
    · rename_i hne
      have hxy : x ≠ y := fun hc => hne (hc ▸ opCmp_self x)
      have hmem : x ∈ ys := by
        rcases List.mem_cons.mp hx with rfl | hmem
        · exact absurd rfl hxy
        · exact hmem
      exact ((ih hs.2 hmem).cons y).trans (List.Perm.swap _ _ _)

theorem btreeRemove_sorted {x : OrderedPoolOperation}
    {l : List OrderedPoolOperation} (hs : l.Pairwise opLt) :
    (btreeRemove x l).Pairwise opLt :=
  hs.sublist (btreeRemove_sublist x l)

theorem mem_btreeRemove_iff {x : OrderedPoolOperation}
    {l : List OrderedPoolOperation} (hs : l.Pairwise opLt) (hx : x ∈ l)
    {z : OrderedPoolOperation} :
    z ∈ btreeRemove x l ↔ z ∈ l ∧ z ≠ x := by
  have hperm := btreeRemove_perm hs hx
  have hnd : (x :: btreeRemove x l).Nodup := hperm.nodup (sorted_nodup hs)
  constructor
  · intro hz
    refine ⟨hperm.mem_iff.mpr (List.mem_cons_of_mem _ hz), ?_⟩
    rintro rfl
    exact (List.nodup_cons.mp hnd).1 hz
  · intro ⟨hz, hne⟩
    rcases List.mem_cons.mp (hperm.mem_iff.mp hz) with rfl | hmem
    · exact absurd rfl hne
    · exact hmem

/-! ## Auxiliary facts about association lists -/

theorem mem_unique_of_nodup_keys {α β : Type} [DecidableEq α]
    {m : List (α × β)} (nd : (akeys m).Nodup) {a : α} {b1 b2 : β}
    (h1 : (a, b1) ∈ m) (h2 : (a, b2) ∈ m) : b1 = b2 := by
  have e1 := alookup_eq_some_of_mem nd h1
  have e2 := alookup_eq_some_of_mem nd h2
  rw [e1] at e2
  exact Option.some_inj.mp e2

theorem akeys_mem_of_pair {α β : Type} {m : List (α × β)} {p : α × β}
    (h : p ∈ m) : p.1 ∈ akeys m :=
  List.mem_map_of_mem Prod.fst h

theorem pair_of_akeys_mem {α β : Type} {m : List (α × β)} {a : α}
    (h : a ∈ akeys m) : ∃ b, (a, b) ∈ m := by
  obtain ⟨⟨k, v⟩, hp, hk⟩ := List.mem_map.mp h
  exact ⟨v, by simpa [← hk] using hp⟩

theorem akeys_ainsert_superset {α β : Type} [DecidableEq α]
    {m : List (α × β)} {p : α} {x : β} {q : α} (h : q ∈ akeys m) :
    q ∈ akeys (ainsert p x m) := by
  by_cases hq : q = p
  · subst hq
    exact akeys_mem_of_pair (List.mem_cons_self _ _)
  · obtain ⟨b, hb⟩ := pair_of_akeys_mem h
    exact akeys_mem_of_pair
      (List.mem_cons_of_mem _ (mem_aerase_of_mem_ne hb hq))

/-! ## Paymaster ledger invariant (spec P6) -/

/-- The total pending debit recorded for one paymaster address across all
per-op contributions. -/
def pendingSum (costs : List (UserOperationId × (Address × Nat)))
    (p : Address) : Nat :=
  ((costs.filter fun c => decide (c.2.1 = p)).map fun c => c.2.2).sum

theorem pendingSum_nil (p : Address) : pendingSum [] p = 0 := rfl

theorem pendingSum_cons (c : UserOperationId × (Address × Nat))
    (costs : List (UserOperationId × (Address × Nat))) (p : Address) :
    pendingSum (c :: costs) p =
      (if c.2.1 = p then c.2.2 else 0) + pendingSum costs p := by
  simp only [pendingSum, List.filter_cons]
  split
  · rename_i hp
    rw [if_pos (by simpa using hp)]
    simp
  · rename_i hp
    rw [if_neg (by simpa using hp)]
    omega

theorem pendingSum_aerase {costs : List (UserOperationId × (Address × Nat))}
    {id : UserOperationId} {p : Address} {cost : Nat}
    (nd : (akeys costs).Nodup) (hl : alookup costs id = some (p, cost)) :
    pendingSum (aerase id costs) p + cost = pendingSum costs p ∧
      ∀ q, q ≠ p → pendingSum (aerase id costs) q = pendingSum costs q := by
  induction costs with
  | nil => simp [alookup] at hl
  | cons c cs ih =>
    obtain ⟨k, v⟩ := c
    simp only [akeys, List.map_cons, List.nodup_cons] at nd
    simp only [alookup] at hl
    simp only [aerase]
    split
    · rename_i hk
      subst hk
      rw [if_pos rfl] at hl
      simp only [Option.some.injEq] at hl
      subst hl
      constructor
      · rw [pendingSum_cons]
        simp
        omega
      · intro q hq
        rw [pendingSum_cons]
        simp only []
        rw [if_neg (fun hc => hq hc.symm)]
        simp
    · rename_i hk
      rw [if_neg hk] at hl
      obtain ⟨h1, h2⟩ := ih nd.2 hl
      constructor
      · rw [pendingSum_cons, pendingSum_cons]
        omega
      · intro q hq
        rw [pendingSum_cons, pendingSum_cons, h2 q hq]

theorem pendingSum_eq_zero_of_no_addr
    {costs : List (UserOperationId × (Address × Nat))} {p : Address}
    (h : ∀ c ∈ costs, c.2.1 ≠ p) : pendingSum costs p = 0 := by
  induction costs with
  | nil => rfl
  | cons c cs ih =>
    rw [pendingSum_cons]
    rw [if_neg (h c (List.mem_cons_self _ _))]
    simpa using ih fun d hd => h d (List.mem_cons_of_mem _ hd)

/-- Well-formedness of the paymaster ledger: every recorded balance has a
pending debit equal to the sum of the per-op contributions for its
address, keys of both maps are duplicate free, and every contribution
points at a recorded balance. -/
def PTWF (pt : PaymasterTracker) : Prop :=
  (∀ pb ∈ pt.balances, pb.2.pending_debit = pendingSum pt.op_costs pb.1) ∧
    (akeys pt.op_costs).Nodup ∧ (akeys pt.balances).Nodup ∧
    ∀ c ∈ pt.op_costs, c.2.1 ∈ akeys pt.balances

theorem PTWF_def {pt : PaymasterTracker} :
    PTWF pt ↔
      (∀ pb ∈ pt.balances, pb.2.pending_debit = pendingSum pt.op_costs pb.1) ∧
        (akeys pt.op_costs).Nodup ∧ (akeys pt.balances).Nodup ∧
        ∀ c ∈ pt.op_costs, c.2.1 ∈ akeys pt.balances := Iff.rfl

theorem remove_operation_op_costs (pt : PaymasterTracker)
    (id : UserOperationId) (nd : (akeys pt.op_costs).Nodup) :
    (pt.remove_operation id).op_costs = aerase id pt.op_costs := by
  unfold PaymasterTracker.remove_operation
  rcases hl : alookup pt.op_costs id with _ | ⟨p, cost⟩
  · rw [aerase_eq_of_not_mem (alookup_eq_none_iff.mp hl)]
  · rfl

theorem PTWF_remove_operation {pt : PaymasterTracker}
    (h : PTWF pt) (id : UserOperationId) : PTWF (pt.remove_operation id) := by
  obtain ⟨hpend, hnd, hbnd, haddr⟩ := h
  unfold PaymasterTracker.remove_operation
  rcases hl : alookup pt.op_costs id with _ | ⟨p, cost⟩
  · exact ⟨hpend, hnd, hbnd, haddr⟩
  · obtain ⟨hsum, hother⟩ := pendingSum_aerase hnd hl
    have hmem := alookup_mem hl
    refine ⟨?_, akeys_aerase_nodup hnd, ?_, ?_⟩
    · intro pb hpb
      rcases hb : alookup pt.balances p with _ | pbp
      · simp only [hb] at hpb
        by_cases hq : pb.1 = p
        · exact absurd (hq ▸ akeys_mem_of_pair hpb)
            (alookup_eq_none_iff.mp hb)
        · rw [hother pb.1 hq]
          exact hpend pb hpb
      · simp only [hb] at hpb
        rw [mem_ainsert_iff hbnd] at hpb
        rcases hpb with rfl | ⟨hpb, hne⟩
        · simp only []
          have := hpend (p, pbp) (alookup_mem hb)
          simp only [] at this
          omega
        · rw [hother pb.1 hne]
          exact hpend pb hpb
    · rcases hb : alookup pt.balances p with _ | pbp
      · simp only [hb]; exact hbnd
      · simp only [hb]; exact akeys_ainsert_nodup hbnd
    · intro c hc
      have hc' := mem_of_mem_aerase hc
      have := haddr c hc'
      rcases hb : alookup pt.balances p with _ | pbp
      · simp only [hb]; exact this
      · simp only [hb]; exact akeys_ainsert_superset this

theorem remove_operation_lookup_none {pt : PaymasterTracker}
    (nd : (akeys pt.op_costs).Nodup) (id : UserOperationId) :
    alookup (pt.remove_operation id).op_costs id = none := by
  rw [remove_operation_op_costs pt id nd]
  exact alookup_aerase_self nd

theorem remove_operation_balances_keys {pt : PaymasterTracker}
    (id : UserOperationId) {q : Address} (h : q ∈ akeys pt.balances) :
    q ∈ akeys (pt.remove_operation id).balances := by
  unfold PaymasterTracker.remove_operation
  rcases hl : alookup pt.op_costs id with _ | ⟨p, cost⟩
  · exact h
  · rcases hb : alookup pt.balances p with _ | pbp
    · simp only [hb]; exact h
    · simp only [hb]; exact akeys_ainsert_superset h

theorem PTWF_add_or_update {env : Env} {pt pt' : PaymasterTracker}
    {op : PoolOperation} {meta : PaymasterMetadata} (h : PTWF pt)
    (hres : pt.add_or_update_balance env op meta = .ok pt') : PTWF pt' := by
  unfold PaymasterTracker.add_or_update_balance at hres
  split at hres
  · exact (Except.ok.injEq _ _ ▸ hres) ▸ h
  · have h1 := PTWF_remove_operation h op.uo.id
    have hlid := remove_operation_lookup_none h.2.1 op.uo.id
    set pt1 := pt.remove_operation op.uo.id with hpt1
    obtain ⟨hpend, hnd, hbnd, haddr⟩ := h1
    rcases hpm : op.uo.paymaster with _ | p
    · rw [hpm] at hres
      simp only [Except.ok.injEq] at hres
      exact hres ▸ ⟨hpend, hnd, hbnd, haddr⟩
    · rw [hpm] at hres
      simp only [] at hres
      split at hres
      · exact absurd hres (by simp)
      · rename_i hle
        simp only [Except.ok.injEq] at hres
        subst hres
        have hera : aerase op.uo.id pt1.op_costs = pt1.op_costs :=
          aerase_eq_of_not_mem (alookup_eq_none_iff.mp hlid)
        have hins : ainsert op.uo.id (p, env.max_cost op) pt1.op_costs
            = (op.uo.id, (p, env.max_cost op)) :: pt1.op_costs := by
          rw [ainsert, hera]
        constructor
        · intro pb hpb
          rw [mem_ainsert_iff hbnd] at hpb
          rcases hpb with rfl | ⟨hpb, hne⟩
          · simp only [hins, pendingSum_cons, if_true]
            rcases hb : alookup pt1.balances p with _ | pbp
            · have hz : pendingSum pt1.op_costs p = 0 := by
                refine pendingSum_eq_zero_of_no_addr fun c hc hcp => ?_
                exact (alookup_eq_none_iff.mp hb) (hcp ▸ haddr c hc)
              simp only [hb, Option.getD_none, hz]
              omega
            · have hpp := hpend (p, pbp) (alookup_mem hb)
              simp only [] at hpp
              simp only [hb, Option.getD_some, hpp]
              omega
          · simp only [hins, pendingSum_cons]
            rw [if_neg (fun hc : p = pb.1 => hne hc.symm)]
            simpa using hpend pb hpb
        · refine ⟨?_, ?_, ?_⟩
          · exact akeys_ainsert_nodup hnd
          · exact akeys_ainsert_nodup hbnd
          · intro c hc
            rw [mem_ainsert_iff hnd] at hc
            rcases hc with rfl | ⟨hc, _⟩
            · exact akeys_mem_of_pair (List.mem_cons_self _ _)
            · exact akeys_ainsert_superset (haddr c hc)

theorem PTWF_update_from_mined {pt : PaymasterTracker} (h : PTWF pt)
    (m : MinedOp) : PTWF (pt.update_paymaster_balance_from_mined_op m) := by
  unfold PaymasterTracker.update_paymaster_balance_from_mined_op
  split
  · exact h
  · rcases m.paymaster with _ | p
    · exact h
    · have h1 := PTWF_remove_operation h m.id
      obtain ⟨hpend, hnd, hbnd, haddr⟩ := h1
      rcases hb : alookup (pt.remove_operation m.id).balances p with _ | pbp
      · simp only [hb]
        exact ⟨hpend, hnd, hbnd, haddr⟩
      · simp only [hb]
        refine ⟨?_, hnd, akeys_ainsert_nodup hbnd, ?_⟩
        · intro pb hpb
          rw [mem_ainsert_iff hbnd] at hpb
          rcases hpb with rfl | ⟨hpb, _⟩
          · simpa using hpend (p, pbp) (alookup_mem hb)
          · exact hpend pb hpb
        · intro c hc
          exact akeys_ainsert_superset (haddr c hc)

theorem PTWF_unmine_actual_cost {pt : PaymasterTracker} (h : PTWF pt)
    (p : Address) (cost : Nat) : PTWF (pt.unmine_actual_cost p cost) := by
  unfold PaymasterTracker.unmine_actual_cost
  split
  · exact h
  · obtain ⟨hpend, hnd, hbnd, haddr⟩ := h
    rcases hb : alookup pt.balances p with _ | pbp
    · exact ⟨hpend, hnd, hbnd, haddr⟩
    · refine ⟨?_, hnd, akeys_ainsert_nodup hbnd, ?_⟩
      · intro pb hpb
        rw [mem_ainsert_iff hbnd] at hpb
        rcases hpb with rfl | ⟨hpb, _⟩
        · simpa using hpend (p, pbp) (alookup_mem hb)
        · exact hpend pb hpb
      · intro c hc
        exact akeys_ainsert_superset (haddr c hc)

/-! ## Pool well-formedness (spec invariants P1, P2, P3, P6) -/

def bestSizeSum (l : List OrderedPoolOperation) : Int :=
  (l.map fun o => (o.mem_size : Int)).sum

/-- Submission ids of all operations the pool still holds, live or in the
reorg cache. -/
def liveSids (s : PoolInner) : List Nat :=
  s.best.map (·.submission_id) ++
    s.mined_at_block_number_by_hash.map fun p => p.2.1.submission_id

/-- Structural well-formedness of the pool state: the three live indexes
describe the same set of operations (each by_hash binding keys the op by
its hash and each by_id binding by its id, and both cover best), keys are
duplicate free, best is strictly sorted, submission ids are unique and
below the counter, the size counter is the sum over best, and the
paymaster ledger is consistent. -/
def WF0 (env : Env) (s : PoolInner) : Prop :=
  (∀ p ∈ s.by_hash, p.1 = hashOfOp env s.config p.2 ∧ p.2 ∈ s.best) ∧
    (∀ o ∈ s.best, (hashOfOp env s.config o, o) ∈ s.by_hash) ∧
    (akeys s.by_hash).Nodup ∧
    (∀ p ∈ s.by_id, p.1 = p.2.uo.id ∧ p.2 ∈ s.best) ∧
    (∀ o ∈ s.best, (o.uo.id, o) ∈ s.by_id) ∧
    (akeys s.by_id).Nodup ∧
    s.best.Pairwise opLt ∧
    (liveSids s).Nodup ∧
    (∀ i ∈ liveSids s, i < s.submission_id) ∧
    s.pool_size = bestSizeSum s.best ∧
    (akeys s.mined_at_block_number_by_hash).Nodup ∧
    PTWF s.paymaster_balances

/-- Every per-op cost recorded by the paymaster ledger belongs to a live
operation. -/
def pmLive (s : PoolInner) : Prop :=
  ∀ c ∈ s.paymaster_balances.op_costs, ∃ o ∈ s.best, o.uo.id = c.1

/-- Full well-formedness: WF0 plus ledger liveness plus the size bound
(spec P3). -/
def WF (env : Env) (s : PoolInner) : Prop :=
  WF0 env s ∧ pmLive s ∧
    s.pool_size ≤ (s.config.max_size_of_pool_bytes : Int)

instance (pt : PaymasterTracker) : Decidable (PTWF pt) := by
  unfold PTWF; infer_instance

instance (env : Env) (s : PoolInner) : Decidable (WF0 env s) := by
  unfold WF0; infer_instance

instance (s : PoolInner) : Decidable (pmLive s) := by
  unfold pmLive; infer_instance

instance (env : Env) (s : PoolInner) : Decidable (WF env s) := by
  unfold WF; infer_instance

theorem lookup_by_hash_of_best {env : Env} {s : PoolInner}
    (hwf : WF0 env s) {o : OrderedPoolOperation} (ho : o ∈ s.best) :
    alookup s.by_hash (hashOfOp env s.config o) = some o :=
  alookup_eq_some_of_mem hwf.2.2.1 (hwf.2.1 o ho)

theorem lookup_by_id_of_best {env : Env} {s : PoolInner}
    (hwf : WF0 env s) {o : OrderedPoolOperation} (ho : o ∈ s.best) :
    alookup s.by_id o.uo.id = some o :=
  alookup_eq_some_of_mem hwf.2.2.2.2.2.1 (hwf.2.2.2.2.1 o ho)

theorem best_sid_nodup {env : Env} {s : PoolInner} (hwf : WF0 env s) :
    (s.best.map (·.submission_id)).Nodup :=
  (List.nodup_append.mp hwf.2.2.2.2.2.2.2.1).1

theorem best_eq_of_sid_eq {env : Env} {s : PoolInner} (hwf : WF0 env s)
    {o1 o2 : OrderedPoolOperation} (h1 : o1 ∈ s.best) (h2 : o2 ∈ s.best)
    (hsid : o1.submission_id = o2.submission_id) : o1 = o2 :=
  List.inj_on_of_nodup_map (best_sid_nodup hwf) h1 h2 hsid

/-! ## Explicit forms of remove_operation_internal -/

theorem remove_internal_not_found {s : PoolInner} {h : Hash}
    (hl : alookup s.by_hash h = none) (bn : Option Nat) :
    s.remove_operation_internal h bn = (none, s) := by
  simp only [PoolInner.remove_operation_internal, hl]

theorem remove_internal_found_none {s : PoolInner} {h : Hash}
    {op : OrderedPoolOperation} (hl : alookup s.by_hash h = some op) :
    s.remove_operation_internal h none =
      (some op.po,
       { s with
         by_hash := aerase h s.by_hash
         by_id := aerase op.uo.id s.by_id
         best := btreeRemove op s.best
         paymaster_balances := s.paymaster_balances.remove_operation op.uo.id
         count_by_address := op.po.entities.foldl
           (fun m e => decrementCount m e.address e.kind) s.count_by_address
         pool_size := s.pool_size - (op.mem_size : Int) }) := by
  simp only [PoolInner.remove_operation_internal, hl]

theorem remove_internal_found_some {s : PoolInner} {h : Hash}
    {op : OrderedPoolOperation} (hl : alookup s.by_hash h = some op)
    (bn : Nat) :
    s.remove_operation_internal h (some bn) =
      (some op.po,
       { s with
         by_hash := aerase h s.by_hash
         by_id := aerase op.uo.id s.by_id
         best := btreeRemove op s.best
         paymaster_balances := s.paymaster_balances.remove_operation op.uo.id
         cache_size := s.cache_size + (op.mem_size : Int)
         mined_at_block_number_by_hash :=
           ainsert h (op, bn) s.mined_at_block_number_by_hash
         mined_hashes_with_block_numbers :=
           if (bn, h) ∈ s.mined_hashes_with_block_numbers then
             s.mined_hashes_with_block_numbers
           else (bn, h) :: s.mined_hashes_with_block_numbers
         count_by_address := op.po.entities.foldl
           (fun m e => decrementCount m e.address e.kind) s.count_by_address
         pool_size := s.pool_size - (op.mem_size : Int) }) := by
  simp only [PoolInner.remove_operation_internal, hl]

theorem remove_internal_wf0 {env : Env} {s : PoolInner} (hwf : WF0 env s)
    (h : Hash) (bn : Option Nat) :
    WF0 env (s.remove_operation_internal h bn).2 := by
  rcases hl : alookup s.by_hash h with _ | op
  · rw [remove_internal_not_found hl]; exact hwf
  · obtain ⟨hk, hc, hnd, hik, hic, hind, hsort, hsid, hslt, hsize, hcnd, hpt⟩ := hwf
    have hpair := alookup_mem hl
    obtain ⟨heq, hopb⟩ := hk _ hpair
    have hidpair := hic op hopb
    have hbest' := fun z => mem_btreeRemove_iff (x := op) hsort hopb (z := z)
    have hsort' := btreeRemove_sorted (x := op) hsort
    have hperm := btreeRemove_perm hsort hopb
    have hashKeys' : ∀ p ∈ aerase h s.by_hash,
        p.1 = hashOfOp env s.config p.2 ∧ p.2 ∈ btreeRemove op s.best := by
      intro p hp
      rw [mem_aerase_iff hnd] at hp
      obtain ⟨hpm, hpne⟩ := hp
      obtain ⟨hp1, hp2⟩ := hk p hpm
      refine ⟨hp1, (hbest' p.2).mpr ⟨hp2, ?_⟩⟩
      rintro rfl
      exact hpne (hp1.trans heq.symm)
    have hashCompl' : ∀ o ∈ btreeRemove op s.best,
        (hashOfOp env s.config o, o) ∈ aerase h s.by_hash := by
      intro o ho
      obtain ⟨hob, hone⟩ := (hbest' o).mp ho
      refine mem_aerase_of_mem_ne (hc o hob) ?_
      intro hcon
      have hmem2 : (h, o) ∈ s.by_hash := by
        rw [← hcon]; exact hc o hob
      exact hone (mem_unique_of_nodup_keys hnd hmem2 hpair)
    have idKeys' : ∀ p ∈ aerase op.uo.id s.by_id,
        p.1 = p.2.uo.id ∧ p.2 ∈ btreeRemove op s.best := by
      intro p hp
      rw [mem_aerase_iff hind] at hp
      obtain ⟨hpm, hpne⟩ := hp
      obtain ⟨hp1, hp2⟩ := hik p hpm
      refine ⟨hp1, (hbest' p.2).mpr ⟨hp2, ?_⟩⟩
      rintro rfl
      exact hpne hp1
    have idCompl' : ∀ o ∈ btreeRemove op s.best,
        (o.uo.id, o) ∈ aerase op.uo.id s.by_id := by
      intro o ho
      obtain ⟨hob, hone⟩ := (hbest' o).mp ho
      refine mem_aerase_of_mem_ne (hic o hob) ?_
      intro hcon
      have hcon' : o.uo.id = op.uo.id := hcon
      have hmem2 : (o.uo.id, op) ∈ s.by_id := by
        rw [hcon']; exact hidpair
      exact hone (mem_unique_of_nodup_keys hind (hic o hob) hmem2)
    have hsum : bestSizeSum s.best =
        (op.mem_size : Int) + bestSizeSum (btreeRemove op s.best) := by
      have hp2 := (hperm.map fun o => ((OrderedPoolOperation.mem_size o) : Int)).sum_eq
      simpa [bestSizeSum] using hp2
    have sizeEq' : s.pool_size - (op.mem_size : Int) =
        bestSizeSum (btreeRemove op s.best) := by
      rw [hsize, hsum]; ring
    have hpt' := PTWF_remove_operation hpt op.uo.id
    have hsidperm : List.Perm (liveSids s)
        (op.submission_id :: ((btreeRemove op s.best).map (·.submission_id) ++
          s.mined_at_block_number_by_hash.map fun p => p.2.1.submission_id)) := by
      have h1 := (hperm.map (·.submission_id)).append_right
        (s.mined_at_block_number_by_hash.map fun p => p.2.1.submission_id)
      simpa [liveSids, List.map_cons, List.cons_append] using h1
    rcases bn with _ | bn
    · rw [remove_internal_found_none hl]
      refine ⟨hashKeys', hashCompl', akeys_aerase_nodup hnd, idKeys', idCompl',
        akeys_aerase_nodup hind, hsort', ?_, ?_, sizeEq', hcnd, hpt'⟩
      · have := hsidperm.nodup hsid
        exact (List.nodup_cons.mp this).2
      · intro i hi
        refine hslt i (hsidperm.mem_iff.mpr ?_)
        exact List.mem_cons_of_mem _ hi
    · rw [remove_internal_found_some hl bn]
      have hcacheper : List.Perm
          ((btreeRemove op s.best).map (·.submission_id) ++
            (op.submission_id ::
              (aerase h s.mined_at_block_number_by_hash).map
                fun p => p.2.1.submission_id))
          (op.submission_id :: ((btreeRemove op s.best).map (·.submission_id) ++
            (aerase h s.mined_at_block_number_by_hash).map
              fun p => p.2.1.submission_id)) := List.perm_middle
      have hsub : List.Sublist
          (op.submission_id :: ((btreeRemove op s.best).map (·.submission_id) ++
            (aerase h s.mined_at_block_number_by_hash).map
              fun p => p.2.1.submission_id))
          (op.submission_id :: ((btreeRemove op s.best).map (·.submission_id) ++
            s.mined_at_block_number_by_hash.map fun p => p.2.1.submission_id)) := by
        refine List.Sublist.cons₂ _ ?_
        exact ((aerase_sublist h s.mined_at_block_number_by_hash).map _).append_left _
      refine ⟨hashKeys', hashCompl', akeys_aerase_nodup hnd, idKeys', idCompl',
        akeys_aerase_nodup hind, hsort', ?_, ?_, sizeEq', ?_, hpt'⟩
      · have hnd2 := (hsidperm.nodup hsid).sublist hsub
        have : (liveSids { s with
            by_hash := aerase h s.by_hash
            by_id := aerase op.uo.id s.by_id
            best := btreeRemove op s.best
            paymaster_balances := s.paymaster_balances.remove_operation op.uo.id
            cache_size := s.cache_size + (op.mem_size : Int)
            mined_at_block_number_by_hash :=
              ainsert h (op, bn) s.mined_at_block_number_by_hash
            mined_hashes_with_block_numbers :=
              if (bn, h) ∈ s.mined_hashes_with_block_numbers then
                s.mined_hashes_with_block_numbers
              else (bn, h) :: s.mined_hashes_with_block_numbers
            count_by_address := op.po.entities.foldl
              (fun m e => decrementCount m e.address e.kind) s.count_by_address
            pool_size := s.pool_size - (op.mem_size : Int) }) =
          ((btreeRemove op s.best).map (·.submission_id) ++
            (op.submission_id ::
              (aerase h s.mined_at_block_number_by_hash).map
                fun p => p.2.1.submission_id)) := by
          simp [liveSids, ainsert]
        rw [this]
        exact hcacheper.symm.nodup hnd2
      · intro i hi
        simp only [liveSids, ainsert, List.map_cons, List.map_append,
          List.mem_append, List.mem_cons, List.mem_map] at hi
        refine hslt i (hsidperm.mem_iff.mpr ?_)
        rcases hi with hi | hi | ⟨p, hp, hpe⟩
        · exact List.mem_cons_of_mem _ (List.mem_append_left _ (by
            simpa using hi))
        · exact hi ▸ List.mem_cons_self _ _
        · refine List.mem_cons_of_mem _ (List.mem_append_right _ ?_)
          exact List.mem_map.mpr ⟨p, mem_of_mem_aerase hp, hpe⟩
      · exact akeys_ainsert_nodup hcnd

theorem WF0.hashKeys {env : Env} {s : PoolInner} (h : WF0 env s) :
    ∀ p ∈ s.by_hash, p.1 = hashOfOp env s.config p.2 ∧ p.2 ∈ s.best := h.1

theorem WF0.hashCompl {env : Env} {s : PoolInner} (h : WF0 env s) :
    ∀ o ∈ s.best, (hashOfOp env s.config o, o) ∈ s.by_hash := h.2.1

theorem WF0.hashNodup {env : Env} {s : PoolInner} (h : WF0 env s) :
    (akeys s.by_hash).Nodup := h.2.2.1

theorem WF0.idKeys {env : Env} {s : PoolInner} (h : WF0 env s) :
    ∀ p ∈ s.by_id, p.1 = p.2.uo.id ∧ p.2 ∈ s.best := h.2.2.2.1

theorem WF0.idCompl {env : Env} {s : PoolInner} (h : WF0 env s) :
    ∀ o ∈ s.best, (o.uo.id, o) ∈ s.by_id := h.2.2.2.2.1

theorem WF0.idNodup {env : Env} {s : PoolInner} (h : WF0 env s) :
    (akeys s.by_id).Nodup := h.2.2.2.2.2.1

theorem WF0.bestSorted {env : Env} {s : PoolInner} (h : WF0 env s) :
    s.best.Pairwise opLt := h.2.2.2.2.2.2.1

theorem WF0.sidNodup {env : Env} {s : PoolInner} (h : WF0 env s) :
    (liveSids s).Nodup := h.2.2.2.2.2.2.2.1

theorem WF0.sidLt {env : Env} {s : PoolInner} (h : WF0 env s) :
    ∀ i ∈ liveSids s, i < s.submission_id := h.2.2.2.2.2.2.2.2.1

theorem WF0.sizeEq {env : Env} {s : PoolInner} (h : WF0 env s) :
    s.pool_size = bestSizeSum s.best := h.2.2.2.2.2.2.2.2.2.1

theorem WF0.cacheNodup {env : Env} {s : PoolInner} (h : WF0 env s) :
    (akeys s.mined_at_block_number_by_hash).Nodup := h.2.2.2.2.2.2.2.2.2.2.1

theorem WF0.ptwf {env : Env} {s : PoolInner} (h : WF0 env s) :
    PTWF s.paymaster_balances := h.2.2.2.2.2.2.2.2.2.2.2

theorem remove_internal_pmLive {env : Env} {s : PoolInner} (hwf : WF0 env s)
    (hlive : pmLive s) (h : Hash) (bn : Option Nat) :
    pmLive (s.remove_operation_internal h bn).2 := by
  rcases hl : alookup s.by_hash h with _ | op
  · rw [remove_internal_not_found hl]; exact hlive
  · have hpair := alookup_mem hl
    obtain ⟨heq, hopb⟩ := hwf.hashKeys _ hpair
    have hcost_nd := hwf.ptwf.2.1
    have hbest' := fun z =>
      mem_btreeRemove_iff (x := op) hwf.bestSorted hopb (z := z)
    have hmain : ∀ c ∈ (s.paymaster_balances.remove_operation op.uo.id).op_costs,
        ∃ o ∈ btreeRemove op s.best, o.uo.id = c.1 := by
      intro c hc
      rw [remove_operation_op_costs _ _ hcost_nd] at hc
      rw [mem_aerase_iff hcost_nd] at hc
      obtain ⟨hcm, hcne⟩ := hc
      obtain ⟨o, hob, hoid⟩ := hlive c hcm
      refine ⟨o, (hbest' o).mpr ⟨hob, ?_⟩, hoid⟩
      rintro rfl
      exact hcne hoid.symm
    rcases bn with _ | bn
    · rw [remove_internal_found_none hl]; exact hmain
    · rw [remove_internal_found_some hl bn]; exact hmain

theorem remove_internal_config (s : PoolInner) (h : Hash) (bn : Option Nat) :
    (s.remove_operation_internal h bn).2.config = s.config ∧
      (s.remove_operation_internal h bn).2.submission_id = s.submission_id := by
  rcases hl : alookup s.by_hash h with _ | op
  · rw [remove_internal_not_found hl]; exact ⟨rfl, rfl⟩
  · rcases bn with _ | bn
    · rw [remove_internal_found_none hl]; exact ⟨rfl, rfl⟩
    · rw [remove_internal_found_some hl bn]; exact ⟨rfl, rfl⟩

theorem remove_internal_size_le (s : PoolInner) (h : Hash) (bn : Option Nat) :
    (s.remove_operation_internal h bn).2.pool_size ≤ s.pool_size := by
  rcases hl : alookup s.by_hash h with _ | op
  · rw [remove_internal_not_found hl]
  · rcases bn with _ | bn
    · rw [remove_internal_found_none hl]
      simp only []
      omega
    · rw [remove_internal_found_some hl bn]
      simp only []
      omega

theorem remove_internal_sublists (s : PoolInner) (h : Hash) (bn : Option Nat) :
    List.Sublist (s.remove_operation_internal h bn).2.by_hash s.by_hash ∧
      List.Sublist (s.remove_operation_internal h bn).2.by_id s.by_id ∧
      List.Sublist (s.remove_operation_internal h bn).2.best s.best := by
  rcases hl : alookup s.by_hash h with _ | op
  · rw [remove_internal_not_found hl]
    exact ⟨List.Sublist.refl _, List.Sublist.refl _, List.Sublist.refl _⟩
  · rcases bn with _ | bn
    · rw [remove_internal_found_none hl]
      exact ⟨aerase_sublist _ _, aerase_sublist _ _, btreeRemove_sublist _ _⟩
    · rw [remove_internal_found_some hl bn]
      exact ⟨aerase_sublist _ _, aerase_sublist _ _, btreeRemove_sublist _ _⟩

theorem alookup_eq_none_of_sublist {α β : Type} [DecidableEq α]
    {m' m : List (α × β)} (hsub : List.Sublist m' m) {a : α}
    (h : alookup m a = none) : alookup m' a = none := by
  rw [alookup_eq_none_iff] at h ⊢
  intro hc
  obtain ⟨b, hb⟩ := pair_of_akeys_mem hc
  exact h (akeys_mem_of_pair (hsub.subset hb))

theorem btreeRemove_append_last {w : OrderedPoolOperation}
    {l : List OrderedPoolOperation} (h : ∀ y ∈ l, opCmp w y ≠ .eq) :
    btreeRemove w (l ++ [w]) = l := by
  induction l with
  | nil => simp [btreeRemove, opCmp_self]
  | cons y ys ih =>
    simp only [List.cons_append, btreeRemove]
    rw [if_neg (h y (List.mem_cons_self _ _))]
    exact congrArg (fun t => y :: t)
      (ih fun z hz => h z (List.mem_cons_of_mem _ hz))

theorem pop_then_remove_eq {env : Env} {s : PoolInner} (hwf : WF0 env s)
    {l : List OrderedPoolOperation} {w : OrderedPoolOperation}
    (hbest : s.best = l ++ [w]) :
    ({ s with best := s.best.dropLast } : PoolInner).remove_operation_internal
        (hashOfOp env s.config w) none =
      s.remove_operation_internal (hashOfOp env s.config w) none := by
  have hwb : w ∈ s.best := by
    rw [hbest]
    exact List.mem_append_right _ (List.mem_cons_self _ _)
  have hlook : alookup s.by_hash (hashOfOp env s.config w) = some w :=
    lookup_by_hash_of_best hwf hwb
  have hlook' : alookup ({ s with best := s.best.dropLast } : PoolInner).by_hash
      (hashOfOp env s.config w) = some w := hlook
  have hnoeq : ∀ y ∈ l, opCmp w y ≠ .eq := by
    have hnd := best_sid_nodup hwf
    rw [hbest] at hnd
    rw [List.map_append, List.nodup_append] at hnd
    intro y hy hc
    rw [opCmp_eq_iff] at hc
    exact hnd.2.2 (List.mem_map_of_mem _ hy) (by simp [hc.2])
  have h1 : btreeRemove w s.best = l := by
    rw [hbest]; exact btreeRemove_append_last hnoeq
  have h2 : btreeRemove w s.best.dropLast = s.best.dropLast := by
    rw [hbest, List.dropLast_concat]
    exact btreeRemove_eq_of_no_eq hnoeq
  rw [remove_internal_found_none hlook', remove_internal_found_none hlook]
  simp only [h1]
  rw [h2, hbest, List.dropLast_concat]

theorem best_last_no_eq {env : Env} {s : PoolInner} (hwf : WF0 env s)
    {l : List OrderedPoolOperation} {w : OrderedPoolOperation}
    (hbest : s.best = l ++ [w]) : ∀ y ∈ l, opCmp w y ≠ .eq := by
  have hnd := best_sid_nodup hwf
  rw [hbest] at hnd
  rw [List.map_append, List.nodup_append] at hnd
  intro y hy hc
  rw [opCmp_eq_iff] at hc
  exact hnd.2.2 (List.mem_map_of_mem _ hy) (by simp [hc.2])

theorem enforce_go_step {env : Env} {s : PoolInner} {fuel : Nat}
    {acc : List Hash}
    (hgt : s.pool_size > (s.config.max_size_of_pool_bytes : Int))
    {w : OrderedPoolOperation} (hlast : s.best.getLast? = some w)
    {ret : PoolOperation} {s1 : PoolInner}
    (hrem : ({ s with best := s.best.dropLast } : PoolInner).remove_operation_internal
        (hashOfOp env s.config w) none = (some ret, s1)) :
    PoolInner.enforce_size_go env (fuel + 1) s acc =
      PoolInner.enforce_size_go env fuel s1 (acc ++ [hashOfOp env s.config w]) := by
  rw [PoolInner.enforce_size_go]
  rw [if_pos hgt, hlast]
  simp only [hrem]

/-- Main specification of the enforce_size loop: under well-formedness and
enough fuel it never errors, restores the size bound, only removes
operations, and reports exactly the removed hashes. -/
theorem enforce_go_spec {env : Env} :
    ∀ (fuel : Nat) (s : PoolInner) (acc : List Hash),
      WF0 env s → pmLive s → s.best.length ≤ fuel →
      ∃ rem s',
        PoolInner.enforce_size_go env fuel s acc = (.ok (acc ++ rem), s') ∧
        WF0 env s' ∧ pmLive s' ∧
        s'.pool_size ≤ (s.config.max_size_of_pool_bytes : Int) ∧
        s'.config = s.config ∧
        s'.submission_id = s.submission_id ∧
        List.Sublist s'.by_hash s.by_hash ∧
        List.Sublist s'.by_id s.by_id ∧
        List.Sublist s'.best s.best ∧
        (∀ h', h' ∉ rem → alookup s'.by_hash h' = alookup s.by_hash h') ∧
        (∀ h' ∈ rem, alookup s'.by_hash h' = none) := by
  intro fuel
  induction fuel with
  | zero =>
    intro s acc hwf hlive hlen
    have hempty : s.best = [] := List.eq_nil_of_length_eq_zero (Nat.le_zero.mp hlen)
    have hsz : s.pool_size = 0 := by
      rw [hwf.sizeEq, hempty]; rfl
    have hng : ¬ s.pool_size > (s.config.max_size_of_pool_bytes : Int) := by
      rw [hsz]
      simp only [gt_iff_lt, not_lt]
      exact Int.natCast_nonneg _
    refine ⟨[], s, ?_, hwf, hlive, ?_, rfl, rfl, .refl _, .refl _, .refl _,
      fun h' _ => rfl, fun h' hc => absurd hc (List.not_mem_nil _)⟩
    · rw [PoolInner.enforce_size_go, if_neg hng, List.append_nil]
    · rw [hsz]
      exact Int.natCast_nonneg _
  | succ fuel ih =>
    intro s acc hwf hlive hlen
    by_cases hgt : s.pool_size > (s.config.max_size_of_pool_bytes : Int)
    · have hne : s.best ≠ [] := by
        intro hc
        rw [hwf.sizeEq, hc] at hgt
        have : (0 : Int) ≤ (s.config.max_size_of_pool_bytes : Int) :=
          Int.natCast_nonneg _
        simp only [bestSizeSum, List.map_nil, List.sum_nil, gt_iff_lt] at hgt
        omega
      obtain ⟨l, w, hbest⟩ : ∃ l w, s.best = l ++ [w] :=
        ⟨s.best.dropLast, s.best.getLast hne,
          (List.dropLast_append_getLast hne).symm⟩
      have hlast : s.best.getLast? = some w := by
        rw [hbest]; exact List.getLast?_concat _
      have hwb : w ∈ s.best := by
        rw [hbest]
        exact List.mem_append_right _ (List.mem_cons_self _ _)
      have hlook : alookup s.by_hash (hashOfOp env s.config w) = some w :=
        lookup_by_hash_of_best hwf hwb
      have hnoeq := best_last_no_eq hwf hbest
      have hbrem : btreeRemove w s.best = l := by
        rw [hbest]; exact btreeRemove_append_last hnoeq
      obtain ⟨ret1, s1, hrem⟩ :
          ∃ r s1, s.remove_operation_internal (hashOfOp env s.config w) none
            = (r, s1) := ⟨_, _, rfl⟩
      have hret1 : ret1 = some w.po := by
        rw [remove_internal_found_none hlook] at hrem
        exact (Prod.mk.injEq _ _ _ _ ▸ hrem).1.symm
      have hrem' : ({ s with best := s.best.dropLast } : PoolInner).remove_operation_internal
          (hashOfOp env s.config w) none = (some w.po, s1) := by
        rw [pop_then_remove_eq hwf hbest, hrem, hret1]
      have hwf1 : WF0 env s1 := by
        have := remove_internal_wf0 hwf (hashOfOp env s.config w) none
        rw [hrem] at this; exact this
      have hlive1 : pmLive s1 := by
        have := remove_internal_pmLive hwf hlive (hashOfOp env s.config w) none
        rw [hrem] at this; exact this
      have hcfg1 : s1.config = s.config ∧ s1.submission_id = s.submission_id := by
        have := remove_internal_config s (hashOfOp env s.config w) none
        rw [hrem] at this; exact this
      have hsub1 : List.Sublist s1.by_hash s.by_hash ∧
          List.Sublist s1.by_id s.by_id ∧ List.Sublist s1.best s.best := by
        have := remove_internal_sublists s (hashOfOp env s.config w) none
        rw [hrem] at this; exact this
      have hs1best : s1.best = l := by
        rw [remove_internal_found_none hlook] at hrem
        have := (Prod.mk.injEq _ _ _ _ ▸ hrem).2
        rw [← this, hbrem]
      have hs1hash : s1.by_hash = aerase (hashOfOp env s.config w) s.by_hash := by
        rw [remove_internal_found_none hlook] at hrem
        have := (Prod.mk.injEq _ _ _ _ ▸ hrem).2
        rw [← this]
      have hlen1 : s1.best.length ≤ fuel := by
        rw [hs1best]
        have : s.best.length = l.length + 1 := by
          rw [hbest, List.length_append, List.length_cons, List.length_nil]
        omega
      obtain ⟨rem1, s', hres, hwf', hlive', hsz', hcfg', hsid', hsubh', hsubi',
        hsubb', hpres', hnone'⟩ := ih s1 (acc ++ [hashOfOp env s.config w]) hwf1 hlive1 hlen1
      refine ⟨hashOfOp env s.config w :: rem1, s', ?_, hwf', hlive', ?_, ?_, ?_,
        ?_, ?_, ?_, ?_, ?_⟩
      · rw [enforce_go_step hgt hlast hrem', hres, List.append_assoc]
        rfl
      · rw [← hcfg1.1]; exact hsz'
      · rw [hcfg', hcfg1.1]
      · rw [hsid', hcfg1.2]
      · exact hsubh'.trans hsub1.1
      · exact hsubi'.trans hsub1.2.1
      · exact hsubb'.trans hsub1.2.2
      · intro h' hh'
        rw [List.mem_cons, not_or] at hh'
        rw [hpres' h' hh'.2, hs1hash, alookup_aerase_ne hh'.1]
      · intro h' hh'
        rcases List.mem_cons.mp hh' with rfl | hmem
        · refine alookup_eq_none_of_sublist hsubh' ?_
          rw [hs1hash]
          exact alookup_aerase_self hwf.hashNodup
        · exact hnone' h' hmem
    · refine ⟨[], s, ?_, hwf, hlive, not_lt.mp hgt, rfl, rfl, .refl _, .refl _,
        .refl _, fun h' _ => rfl, fun h' hc => absurd hc (List.not_mem_nil _)⟩
      rw [PoolInner.enforce_size_go, if_neg hgt, List.append_nil]

theorem insert_wf0 {env : Env} {s : PoolInner} (hwf : WF0 env s)
    {x : OrderedPoolOperation}
    (hhash : alookup s.by_hash (hashOfOp env s.config x) = none)
    (hid : alookup s.by_id x.uo.id = none)
    (hfresh : x.submission_id ∉ liveSids s)
    (hlt : x.submission_id < s.submission_id) :
    WF0 env { s with
      pool_size := s.pool_size + (x.mem_size : Int)
      by_hash := ainsert (hashOfOp env s.config x) x s.by_hash
      by_id := ainsert x.uo.id x s.by_id
      best := btreeInsert x s.best } := by
  have hnoeq : ∀ y ∈ s.best, opCmp x y ≠ .eq := by
    intro y hy
    refine opCmp_ne_eq_of_ne_sid fun hc => hfresh ?_
    rw [hc]
    exact List.mem_append_left _ (List.mem_map_of_mem _ hy)
  have hip := btreeInsert_perm hnoeq
  have hinsh : ainsert (hashOfOp env s.config x) x s.by_hash
      = (hashOfOp env s.config x, x) :: s.by_hash := by
    rw [ainsert, aerase_eq_of_not_mem (alookup_eq_none_iff.mp hhash)]
  have hinsi : ainsert x.uo.id x s.by_id = (x.uo.id, x) :: s.by_id := by
    rw [ainsert, aerase_eq_of_not_mem (alookup_eq_none_iff.mp hid)]
  have hxmem : x ∈ btreeInsert x s.best :=
    hip.mem_iff.mpr (List.mem_cons_self _ _)
  have hbmem : ∀ z ∈ s.best, z ∈ btreeInsert x s.best := fun z hz =>
    hip.mem_iff.mpr (List.mem_cons_of_mem _ hz)
  have hsidperm : List.Perm
      (liveSids { s with
        pool_size := s.pool_size + (x.mem_size : Int)
        by_hash := ainsert (hashOfOp env s.config x) x s.by_hash
        by_id := ainsert x.uo.id x s.by_id
        best := btreeInsert x s.best })
      (x.submission_id :: liveSids s) := by
    have h1 := (hip.map (·.submission_id)).append_right
      (s.mined_at_block_number_by_hash.map fun p => p.2.1.submission_id)
    simpa [liveSids, List.map_cons, List.cons_append] using h1
  refine ⟨?_, ?_, ?_, ?_, ?_, ?_, btreeInsert_sorted hwf.bestSorted hnoeq,
    ?_, ?_, ?_, hwf.cacheNodup, hwf.ptwf⟩
  · intro p hp
    rw [hinsh] at hp
    rcases List.mem_cons.mp hp with rfl | hmem
    · exact ⟨rfl, hxmem⟩
    · obtain ⟨h1, h2⟩ := hwf.hashKeys p hmem
      exact ⟨h1, hbmem _ h2⟩
  · intro o ho
    rw [hinsh]
    rcases List.mem_cons.mp (hip.mem_iff.mp ho) with rfl | hmem
    · exact List.mem_cons_self _ _
    · exact List.mem_cons_of_mem _ (hwf.hashCompl o hmem)
  · rw [hinsh]
    simp only [akeys, List.map_cons, List.nodup_cons]
    exact ⟨alookup_eq_none_iff.mp hhash, hwf.hashNodup⟩
  · intro p hp
    rw [hinsi] at hp
    rcases List.mem_cons.mp hp with rfl | hmem
    · exact ⟨rfl, hxmem⟩
    · obtain ⟨h1, h2⟩ := hwf.idKeys p hmem
      exact ⟨h1, hbmem _ h2⟩
  · intro o ho
    rw [hinsi]
    rcases List.mem_cons.mp (hip.mem_iff.mp ho) with rfl | hmem
    · exact List.mem_cons_self _ _
    · exact List.mem_cons_of_mem _ (hwf.idCompl o hmem)
  · rw [hinsi]
    simp only [akeys, List.map_cons, List.nodup_cons]
    exact ⟨alookup_eq_none_iff.mp hid, hwf.idNodup⟩
  · refine hsidperm.symm.nodup (List.nodup_cons.mpr ⟨hfresh, hwf.sidNodup⟩)
  · intro i hi
    rcases List.mem_cons.mp (hsidperm.mem_iff.mp hi) with rfl | hmem
    · exact hlt
    · exact hwf.sidLt i hmem
  · have hsum := (hip.map fun o => ((OrderedPoolOperation.mem_size o) : Int)).sum_eq
    simp only [List.map_cons, List.sum_cons] at hsum
    have hse := hwf.sizeEq
    simp only [bestSizeSum] at hsum hse ⊢
    omega

theorem check_replacement_ok_none {env : Env} {s : PoolInner}
    {op : UserOperation} (h : s.check_replacement env op = .ok none) :
    alookup s.by_hash (opHashOf env s.config op) = none ∧
      alookup s.by_id op.id = none := by
  unfold PoolInner.check_replacement at h
  split at h
  · exact absurd h (by simp)
  · rename_i hns
    have hh : alookup s.by_hash (opHashOf env s.config op) = none := by
      rcases hx : alookup s.by_hash (opHashOf env s.config op) with _ | v
      · rfl
      · rw [hx] at hns; simp at hns
    split at h
    · simp only [] at h
      split at h
      · exact absurd h (by simp)
      · exact absurd h (by simp)
    · rename_i hl
      exact ⟨hh, hl⟩

theorem check_replacement_ok_some {env : Env} {s : PoolInner}
    {op : UserOperation} {hx : Hash}
    (h : s.check_replacement env op = .ok (some hx)) :
    alookup s.by_hash (opHashOf env s.config op) = none ∧
      ∃ ex, alookup s.by_id op.id = some ex ∧
        hx = opHashOf env s.config ex.uo ∧
        increase_by_percent ex.uo.max_priority_fee_per_gas
            s.config.min_replacement_fee_increase_percentage ≤
          op.max_priority_fee_per_gas ∧
        increase_by_percent ex.uo.max_fee_per_gas
            s.config.min_replacement_fee_increase_percentage ≤
          op.max_fee_per_gas := by
  unfold PoolInner.check_replacement at h
  split at h
  · exact absurd h (by simp)
  · rename_i hns
    have hh : alookup s.by_hash (opHashOf env s.config op) = none := by
      rcases hx : alookup s.by_hash (opHashOf env s.config op) with _ | v
      · rfl
      · rw [hx] at hns; simp at hns
    split at h
    · rename_i pool_op hl
      simp only [] at h
      split at h
      · exact absurd h (by simp)
      · rename_i hge
        rw [not_or] at hge
        simp only [PoolInner.get_min_replacement_fees, not_lt] at hge
        simp only [Except.ok.injEq, Option.some.injEq] at h
        exact ⟨hh, pool_op, hl, h.symm, hge.1, hge.2⟩
    · exact absurd h (by simp)

theorem check_replacement_underpriced {env : Env} {s : PoolInner}
    {op : UserOperation} {ex : OrderedPoolOperation}
    (hh : alookup s.by_hash (opHashOf env s.config op) = none)
    (hl : alookup s.by_id op.id = some ex)
    (hlow : op.max_priority_fee_per_gas <
        increase_by_percent ex.uo.max_priority_fee_per_gas
          s.config.min_replacement_fee_increase_percentage ∨
      op.max_fee_per_gas <
        increase_by_percent ex.uo.max_fee_per_gas
          s.config.min_replacement_fee_increase_percentage) :
    s.check_replacement env op =
      .error (.ReplacementUnderpriced ex.uo.max_priority_fee_per_gas
        ex.uo.max_fee_per_gas) := by
  unfold PoolInner.check_replacement
  simp only [hh, Option.isSome_none, Bool.false_eq_true, if_false, hl]
  rw [if_pos]
  simpa only [PoolInner.get_min_replacement_fees] using hlow

/-- Submission ids only shrink under removal. -/
theorem remove_internal_liveSids {env : Env} {s : PoolInner} (hwf : WF0 env s)
    (h : Hash) (bn : Option Nat) {i : Nat}
    (hi : i ∈ liveSids (s.remove_operation_internal h bn).2) :
    i ∈ liveSids s := by
  rcases hl : alookup s.by_hash h with _ | op
  · rw [remove_internal_not_found hl] at hi; exact hi
  · have hopb : op ∈ s.best := (hwf.hashKeys _ (alookup_mem hl)).2
    have hb : ∀ z ∈ btreeRemove op s.best, z ∈ s.best := fun z hz =>
      (btreeRemove_sublist op s.best).subset hz
    rcases bn with _ | bn
    · rw [remove_internal_found_none hl] at hi
      simp only [liveSids, List.mem_append, List.mem_map] at hi ⊢
      rcases hi with ⟨o, ho, hoe⟩ | hi
      · exact Or.inl ⟨o, hb o ho, hoe⟩
      · exact Or.inr hi
    · rw [remove_internal_found_some hl bn] at hi
      simp only [liveSids, List.mem_append, List.mem_map, ainsert,
        List.mem_cons] at hi ⊢
      rcases hi with ⟨o, ho, hoe⟩ | ⟨p, hp, hpe⟩
      · exact Or.inl ⟨o, hb o ho, hoe⟩
      · rcases hp with rfl | hp
        · exact Or.inl ⟨op, hopb, hpe⟩
        · exact Or.inr ⟨p, mem_of_mem_aerase hp, hpe⟩

theorem add_or_update_costs_shape {env : Env} {pt pt' : PaymasterTracker}
    {op : PoolOperation} {meta : PaymasterMetadata}
    (h : pt.add_or_update_balance env op meta = .ok pt') :
    ∀ c ∈ pt'.op_costs, c ∈ pt.op_costs ∨ c.1 = op.uo.id := by
  have hro : ∀ c ∈ (pt.remove_operation op.uo.id).op_costs, c ∈ pt.op_costs := by
    intro c hc
    unfold PaymasterTracker.remove_operation at hc
    rcases hl : alookup pt.op_costs op.uo.id with _ | v
    · rw [hl] at hc; exact hc
    · rw [hl] at hc
      exact mem_of_mem_aerase hc
  unfold PaymasterTracker.add_or_update_balance at h
  split at h
  · simp only [Except.ok.injEq] at h
    subst h
    exact fun c hc => Or.inl hc
  · split at h
    · simp only [Except.ok.injEq] at h
      subst h
      exact fun c hc => Or.inl (hro c hc)
    · simp only [] at h
      split at h
      · exact absurd h (by simp)
      · simp only [Except.ok.injEq] at h
        subst h
        intro c hc
        simp only [] at hc
        rcases List.mem_cons.mp hc with rfl | hmem
        · exact Or.inr rfl
        · exact Or.inl (hro c (mem_of_mem_aerase hmem))

theorem update_from_mined_costs_shape (pt : PaymasterTracker) (m : MinedOp) :
    ∀ c ∈ (pt.update_paymaster_balance_from_mined_op m).op_costs,
      c ∈ pt.op_costs := by
  have hro : ∀ d ∈ (pt.remove_operation m.id).op_costs, d ∈ pt.op_costs := by
    intro d hd
    unfold PaymasterTracker.remove_operation at hd
    rcases hl : alookup pt.op_costs m.id with _ | v
    · rw [hl] at hd; exact hd
    · rw [hl] at hd
      exact mem_of_mem_aerase hd
  intro c hc
  unfold PaymasterTracker.update_paymaster_balance_from_mined_op at hc
  split at hc
  · exact hc
  · split at hc
    · exact hc
    · simp only [] at hc
      split at hc
      · exact hro c hc
      · exact hro c hc

theorem add_insert_spec {env : Env} {s : PoolInner} (hwf : WF0 env s)
    {op : PoolOperation} {sid : Nat}
    (hliveX : ∀ c ∈ s.paymaster_balances.op_costs,
      (∃ o ∈ s.best, o.uo.id = c.1) ∨ c.1 = op.uo.id)
    (hhn : alookup s.by_hash (opHashOf env s.config op.uo) = none)
    (hidn : alookup s.by_id op.uo.id = none)
    (hfresh : sid ∉ liveSids s)
    (hlt : sid < s.submission_id) :
    WF env (s.add_insert env op sid).2 ∧
      (s.add_insert env op sid).2.config = s.config ∧
      (s.add_insert env op sid).2.submission_id = s.submission_id ∧
      (∀ h, (s.add_insert env op sid).1 = .ok h →
        h = opHashOf env s.config op.uo ∧
        alookup (s.add_insert env op sid).2.by_hash h = some ⟨op, sid⟩ ∧
        alookup (s.add_insert env op sid).2.by_id op.uo.id = some ⟨op, sid⟩) ∧
      ((s.add_insert env op sid).1 = .error .DiscardedOnInsert →
        alookup (s.add_insert env op sid).2.by_hash
          (opHashOf env s.config op.uo) = none ∧
        alookup (s.add_insert env op sid).2.by_id op.uo.id = none) ∧
      (∀ h', h' ≠ opHashOf env s.config op.uo →
        alookup s.by_hash h' = none →
        alookup (s.add_insert env op sid).2.by_hash h' = none) ∧
      (∀ e, (s.add_insert env op sid).1 = .error e → e = .DiscardedOnInsert) := by
  have hx : (⟨op, sid⟩ : OrderedPoolOperation).uo = op.uo := rfl
  set x : OrderedPoolOperation := ⟨op, sid⟩ with hxdef
  have hs4wf : WF0 env { s with
      count_by_address := x.po.entities.foldl incrementCount s.count_by_address } :=
    hwf
  have hwf5 := insert_wf0 (x := x) hs4wf hhn hidn hfresh hlt
  set s5 : PoolInner := { s with
    count_by_address := x.po.entities.foldl incrementCount s.count_by_address
    pool_size := s.pool_size + (x.mem_size : Int)
    by_hash := ainsert (hashOfOp env s.config x) x s.by_hash
    by_id := ainsert x.uo.id x s.by_id
    best := btreeInsert x s.best } with hs5def
  have hwf5' : WF0 env s5 := hwf5
  have hxmem5 : x ∈ s5.best := by
    have hnoeq : ∀ y ∈ s.best, opCmp x y ≠ .eq := by
      intro y hy
      refine opCmp_ne_eq_of_ne_sid fun hc => hfresh ?_
      exact List.mem_append_left _ (List.mem_map.mpr ⟨y, hy, hc.symm⟩)
    exact (btreeInsert_perm hnoeq).mem_iff.mpr (List.mem_cons_self _ _)
  have hlive5 : pmLive s5 := by
    intro c hc
    rcases hliveX c hc with ⟨o, ho, hoe⟩ | hce
    · refine ⟨o, ?_, hoe⟩
      have hnoeq : ∀ y ∈ s.best, opCmp x y ≠ .eq := by
        intro y hy
        refine opCmp_ne_eq_of_ne_sid fun hcc => hfresh ?_
        exact List.mem_append_left _ (List.mem_map.mpr ⟨y, hy, hcc.symm⟩)
      exact (btreeInsert_perm hnoeq).mem_iff.mpr (List.mem_cons_of_mem _ ho)
    · exact ⟨x, hxmem5, hce ▸ rfl⟩
  obtain ⟨rem, s', hres, hwf', hlive', hsz', hcfg', hsid', hsubh', hsubi',
      hsubb', hpres', hnone'⟩ :=
    enforce_go_spec (s5.best.length + 1) s5 [] hwf5' hlive5 (Nat.le_succ _)
  have henf : s5.enforce_size env = (.ok rem, s') := by
    unfold PoolInner.enforce_size
    rw [hres]
    rfl
  have hmain : s.add_insert env op sid =
      (if hashOfOp env s.config x ∈ rem then
        ((.error .DiscardedOnInsert : Except MempoolError Hash), s')
      else (.ok (hashOfOp env s.config x), s')) := by
    show (match s5.enforce_size env with
          | (.error msg, t) => ((.error (.Other msg) : Except MempoolError Hash), t)
          | (.ok removed, t) =>
            if hashOfOp env s.config x ∈ removed then
              (.error .DiscardedOnInsert, t)
            else (.ok (hashOfOp env s.config x), t)) = _
    rw [henf]
  have hhashx : hashOfOp env s.config x = opHashOf env s.config op.uo := rfl
  have hlook5 : alookup s5.by_hash (hashOfOp env s.config x) = some x :=
    alookup_ainsert_self
  have hid5 : alookup s5.by_id op.uo.id = some x := alookup_ainsert_self
  have hwfout : WF env s' := by
    refine ⟨hwf', hlive', ?_⟩
    rw [hcfg']
    exact hsz'
  have habsent : ∀ h', h' ≠ opHashOf env s.config op.uo →
      alookup s.by_hash h' = none →
      alookup s'.by_hash h' = none := by
    intro h' hne hnone
    refine alookup_eq_none_of_sublist hsubh' ?_
    show alookup s5.by_hash h' = none
    rw [show s5.by_hash = ainsert (hashOfOp env s.config x) x s.by_hash from rfl]
    rw [alookup_ainsert_ne (by rw [hhashx]; exact hne)]
    exact hnone
  by_cases hmem : hashOfOp env s.config x ∈ rem
  · rw [if_pos hmem] at hmain
    rw [hmain]
    have hbhn : alookup s'.by_hash (opHashOf env s.config op.uo) = none := by
      rw [← hhashx]
      exact hnone' _ hmem
    have hbin : alookup s'.by_id op.uo.id = none := by
      rcases hby : alookup s'.by_id op.uo.id with _ | y
      · rfl
      · exfalso
        have hpair := alookup_mem hby
        have hpair5 := hsubi'.subset hpair
        have hy : y = x := by
          have := (mem_ainsert_iff (hwf.idNodup) (p := (op.uo.id, y))).mp hpair5
          rcases this with heq | ⟨_, hne⟩
          · exact congrArg Prod.snd heq
          · exact absurd rfl hne
        subst hy
        have hyb := (hwf'.idKeys _ hpair).2
        have hhb := hwf'.hashCompl _ hyb
        have hsx : alookup s'.by_hash (hashOfOp env s'.config x) = some x :=
          alookup_eq_some_of_mem hwf'.hashNodup hhb
        rw [show hashOfOp env s'.config x = opHashOf env s.config op.uo from by
          rw [hcfg']; exact rfl] at hsx
        rw [hsx] at hbhn
        exact absurd hbhn (by simp)
    refine ⟨hwfout, by rw [hcfg'], by rw [hsid'], ?_, ?_, habsent, ?_⟩
    · intro h hok
      exact absurd hok (by simp)
    · intro _
      exact ⟨hbhn, hbin⟩
    · intro e he
      simp only [Except.error.injEq] at he
      exact he.symm
  · rw [if_neg hmem] at hmain
    rw [hmain]
    have hlook' : alookup s'.by_hash (hashOfOp env s.config x) = some x := by
      rw [hpres' _ hmem]
      exact hlook5
    have hid' : alookup s'.by_id op.uo.id = some x := by
      have hpair := alookup_mem hlook'
      have hyb := (hwf'.hashKeys _ hpair).2
      exact alookup_eq_some_of_mem hwf'.idNodup (hwf'.idCompl _ hyb)
    refine ⟨hwfout, by rw [hcfg'], by rw [hsid'], ?_, ?_, habsent, ?_⟩
    · intro h hok
      simp only [Except.ok.injEq] at hok
      subst hok
      exact ⟨hhashx, hlook', hid'⟩
    · intro hdisc
      exact absurd hdisc (by simp)
    · intro e he
      exact absurd he (by simp)

theorem WF0_bump {env : Env} {s : PoolInner} (hwf : WF0 env s) {n : Nat}
    (hn : s.submission_id ≤ n) : WF0 env { s with submission_id := n } := by
  obtain ⟨hk, hc, hnd, hik, hic, hind, hsort, hsidn, hslt, hsize, hcnd, hpt⟩ := hwf
  exact ⟨hk, hc, hnd, hik, hic, hind, hsort, hsidn,
    fun i hi => lt_of_lt_of_le (hslt i hi) hn, hsize, hcnd, hpt⟩

theorem add_finish_spec {env : Env} {s : PoolInner} (hwf : WF0 env s)
    {op : PoolOperation} {sid? : Option Nat}
    (hsid : ∀ i, sid? = some i → i ∉ liveSids s ∧ i < s.submission_id)
    (hliveX : ∀ c ∈ s.paymaster_balances.op_costs,
      (∃ o ∈ s.best, o.uo.id = c.1) ∨ c.1 = op.uo.id)
    (hhn : alookup s.by_hash (opHashOf env s.config op.uo) = none)
    (hidn : alookup s.by_id op.uo.id = none) :
    WF env (s.add_finish env op sid?).2 ∧
      (s.add_finish env op sid?).2.config = s.config ∧
      s.submission_id ≤ (s.add_finish env op sid?).2.submission_id ∧
      (∀ h, (s.add_finish env op sid?).1 = .ok h →
        h = opHashOf env s.config op.uo ∧
        ∃ sid, alookup (s.add_finish env op sid?).2.by_hash h = some ⟨op, sid⟩ ∧
          alookup (s.add_finish env op sid?).2.by_id op.uo.id = some ⟨op, sid⟩) ∧
      ((s.add_finish env op sid?).1 = .error .DiscardedOnInsert →
        alookup (s.add_finish env op sid?).2.by_hash
          (opHashOf env s.config op.uo) = none ∧
        alookup (s.add_finish env op sid?).2.by_id op.uo.id = none) ∧
      (∀ h', h' ≠ opHashOf env s.config op.uo →
        alookup s.by_hash h' = none →
        alookup (s.add_finish env op sid?).2.by_hash h' = none) ∧
      (∀ e, (s.add_finish env op sid?).1 = .error e → e = .DiscardedOnInsert) := by
  rcases sid? with _ | i
  · have hwfb : WF0 env { s with submission_id := s.submission_id + 1 } :=
      WF0_bump hwf (Nat.le_succ _)
    have hfresh : s.submission_id ∉ liveSids s := fun hc =>
      absurd (hwf.sidLt _ hc) (lt_irrefl _)
    have hspec := add_insert_spec (s := { s with submission_id := s.submission_id + 1 })
      hwfb hliveX hhn hidn hfresh (Nat.lt_succ_self _)
    have heq : s.add_finish env op none =
        ({ s with submission_id := s.submission_id + 1 } : PoolInner).add_insert
          env op s.submission_id := rfl
    rw [heq]
    obtain ⟨h1, h2, h3, h4, h5, h6, h7⟩ := hspec
    refine ⟨h1, h2, ?_, ?_, h5, h6, h7⟩
    · rw [h3]
      exact Nat.le_succ _
    · intro h hok
      obtain ⟨ha, hb, hc⟩ := h4 h hok
      exact ⟨ha, s.submission_id, hb, hc⟩
  · obtain ⟨hfresh, hlt⟩ := hsid i rfl
    have hspec := add_insert_spec hwf hliveX hhn hidn hfresh hlt
    have heq : s.add_finish env op (some i) = s.add_insert env op i := rfl
    rw [heq]
    obtain ⟨h1, h2, h3, h4, h5, h6, h7⟩ := hspec
    refine ⟨h1, h2, le_of_eq h3.symm, ?_, h5, h6, h7⟩
    intro h hok
    obtain ⟨ha, hb, hc⟩ := h4 h hok
    exact ⟨ha, i, hb, hc⟩

theorem add_or_update_error {env : Env} {pt : PaymasterTracker}
    {op : PoolOperation} {meta : PaymasterMetadata} {e : MempoolError}
    (h : pt.add_or_update_balance env op meta = .error e) :
    e = .PaymasterBalanceTooLow := by
  unfold PaymasterTracker.add_or_update_balance at h
  split at h
  · exact absurd h (by simp)
  · split at h
    · exact absurd h (by simp)
    · simp only [] at h
      split at h
      · simp only [Except.error.injEq] at h
        exact h.symm
      · exact absurd h (by simp)

theorem check_replacement_error_shape {env : Env} {s : PoolInner}
    {op : UserOperation} {e : MempoolError}
    (h : s.check_replacement env op = .error e) :
    e = .OperationAlreadyKnown ∨
      ∃ a b, e = .ReplacementUnderpriced a b := by
  unfold PoolInner.check_replacement at h
  split at h
  · simp only [Except.error.injEq] at h
    exact Or.inl h.symm
  · split at h
    · simp only [] at h
      split at h
      · simp only [Except.error.injEq] at h
        exact Or.inr ⟨_, _, h.symm⟩
      · exact absurd h (by simp)
    · exact absurd h (by simp)

theorem add_rest_spec {env : Env} {s : PoolInner} (hwf : WF0 env s)
    (hlive : pmLive s)
    (hle : s.pool_size ≤ (s.config.max_size_of_pool_bytes : Int))
    {op : PoolOperation} {sid? : Option Nat}
    (hsid : ∀ i, sid? = some i → i ∉ liveSids s ∧ i < s.submission_id)
    (meta : Option PaymasterMetadata)
    (hhn : alookup s.by_hash (opHashOf env s.config op.uo) = none)
    (hidn : alookup s.by_id op.uo.id = none) :
    WF env (s.add_rest env op sid? meta).2 ∧
      (s.add_rest env op sid? meta).2.config = s.config ∧
      s.submission_id ≤ (s.add_rest env op sid? meta).2.submission_id ∧
      (∀ h, (s.add_rest env op sid? meta).1 = .ok h →
        h = opHashOf env s.config op.uo ∧
        ∃ sid, alookup (s.add_rest env op sid? meta).2.by_hash h = some ⟨op, sid⟩ ∧
          alookup (s.add_rest env op sid? meta).2.by_id op.uo.id = some ⟨op, sid⟩) ∧
      ((s.add_rest env op sid? meta).1 = .error .DiscardedOnInsert →
        alookup (s.add_rest env op sid? meta).2.by_hash
          (opHashOf env s.config op.uo) = none ∧
        alookup (s.add_rest env op sid? meta).2.by_id op.uo.id = none) ∧
      (∀ h', h' ≠ opHashOf env s.config op.uo →
        alookup s.by_hash h' = none →
        alookup (s.add_rest env op sid? meta).2.by_hash h' = none) ∧
      (∀ e, (s.add_rest env op sid? meta).1 = .error e →
        e = .DiscardedOnInsert ∨ e = .PaymasterBalanceTooLow) := by
  rcases hpm : (match meta with
      | some m => s.paymaster_balances.add_or_update_balance env op m
      | none => .ok s.paymaster_balances) with e | pb
  · have hres : s.add_rest env op sid? meta = (.error e, s) := by
      unfold PoolInner.add_rest
      rw [hpm]
    have hpbe : e = .PaymasterBalanceTooLow := by
      rcases meta with _ | m
      · exact absurd hpm (by simp)
      · exact add_or_update_error hpm
    rw [hres]
    subst hpbe
    refine ⟨⟨hwf, hlive, hle⟩, rfl, le_refl _, ?_, ?_, ?_, ?_⟩
    · intro h hok; exact absurd hok (by simp)
    · intro hdisc
      exact absurd hdisc (by simp)
    · intro h' _ hn; exact hn
    · intro e' he'
      simp only [Except.error.injEq] at he'
      exact Or.inr he'.symm
  · have hres : s.add_rest env op sid? meta =
        ({ s with paymaster_balances := pb } : PoolInner).add_finish env op sid? := by
      unfold PoolInner.add_rest
      rw [hpm]
    have hptwf : PTWF pb := by
      rcases meta with _ | m
      · simp only [Except.ok.injEq] at hpm
        exact hpm ▸ hwf.ptwf
      · exact PTWF_add_or_update hwf.ptwf hpm
    have hwf2 : WF0 env ({ s with paymaster_balances := pb } : PoolInner) := by
      obtain ⟨hk, hc, hnd, hik, hic, hind, hsort, hsidn, hslt, hsize, hcnd, _⟩ := hwf
      exact ⟨hk, hc, hnd, hik, hic, hind, hsort, hsidn, hslt, hsize, hcnd, hptwf⟩
    have hliveX2 : ∀ c ∈ pb.op_costs,
        (∃ o ∈ ({ s with paymaster_balances := pb } : PoolInner).best,
          o.uo.id = c.1) ∨ c.1 = op.uo.id := by
      intro c hc
      rcases meta with _ | m
      · simp only [Except.ok.injEq] at hpm
        subst hpm
        exact Or.inl (hlive c hc)
      · rcases add_or_update_costs_shape hpm c hc with hmem | hce
        · exact Or.inl (hlive c hmem)
        · exact Or.inr hce
    have hspec := add_finish_spec hwf2 hsid hliveX2 hhn hidn
    rw [hres]
    obtain ⟨h1, h2, h3, h4, h5, h6, h7⟩ := hspec
    exact ⟨h1, h2, h3, h4, h5, h6, fun e he => Or.inl (h7 e he)⟩

/-- Master specification of add_operation_internal under well-formedness:
the result is well-formed, a success stores exactly the new operation
under its id and hash (and the replaced operation is gone), a discarded
insert leaves the operation absent, and the only errors are the admission
errors of the source. -/
theorem add_internal_spec {env : Env} {s : PoolInner} (hwf : WF env s)
    (op : PoolOperation) (sid? : Option Nat)
    (hsid : ∀ i, sid? = some i → i ∉ liveSids s ∧ i < s.submission_id)
    (meta : Option PaymasterMetadata) :
    WF env (s.add_operation_internal env op sid? meta).2 ∧
      (s.add_operation_internal env op sid? meta).2.config = s.config ∧
      (∀ h, (s.add_operation_internal env op sid? meta).1 = .ok h →
        h = opHashOf env s.config op.uo ∧
        (∃ sid, alookup (s.add_operation_internal env op sid? meta).2.by_hash h
            = some ⟨op, sid⟩ ∧
          alookup (s.add_operation_internal env op sid? meta).2.by_id op.uo.id
            = some ⟨op, sid⟩) ∧
        (∀ hx, s.check_replacement env op.uo = .ok (some hx) →
          alookup (s.add_operation_internal env op sid? meta).2.by_hash hx
            = none)) ∧
      ((s.add_operation_internal env op sid? meta).1 = .error .DiscardedOnInsert →
        alookup (s.add_operation_internal env op sid? meta).2.by_hash
          (opHashOf env s.config op.uo) = none ∧
        alookup (s.add_operation_internal env op sid? meta).2.by_id op.uo.id
          = none) ∧
      (∀ msg, (s.add_operation_internal env op sid? meta).1 ≠ .error (.Other msg)) := by
  obtain ⟨hwf0, hlive, hle⟩ := hwf
  rcases hcr : s.check_replacement env op.uo with e | replaced
  · have hres : s.add_operation_internal env op sid? meta = (.error e, s) := by
      unfold PoolInner.add_operation_internal
      rw [hcr]
    rw [hres]
    have hshape := check_replacement_error_shape hcr
    refine ⟨⟨hwf0, hlive, hle⟩, rfl, ?_, ?_, ?_⟩
    · intro h hok; exact absurd hok (by simp)
    · intro hdisc
      simp only [Except.error.injEq] at hdisc
      subst hdisc
      rcases hshape with h | ⟨a, b, h⟩ <;> simp at h
    · intro msg hmsg
      simp only [Except.error.injEq] at hmsg
      subst hmsg
      rcases hshape with h | ⟨a, b, h⟩ <;> simp at h
  · rcases replaced with _ | hx0
    · obtain ⟨hhn, hidn⟩ := check_replacement_ok_none hcr
      have hres : s.add_operation_internal env op sid? meta =
          s.add_rest env op sid? meta := by
        unfold PoolInner.add_operation_internal
        rw [hcr]
      rw [hres]
      obtain ⟨h1, h2, h3, h4, h5, h6, h7⟩ :=
        add_rest_spec hwf0 hlive hle hsid meta hhn hidn
      refine ⟨h1, h2, ?_, h5, ?_⟩
      · intro h hok
        obtain ⟨ha, hb⟩ := h4 h hok
        refine ⟨ha, hb, ?_⟩
        intro hx hcx
        exact absurd hcx (by simp)
      · intro msg hmsg
        rcases h7 _ hmsg with h | h <;> simp at h
    · obtain ⟨hhn, ex, hexl, hexh, _, _⟩ := check_replacement_ok_some hcr
      have hexpair := alookup_mem hexl
      obtain ⟨hexid0, hexb⟩ := hwf0.idKeys _ hexpair
      have hexid : op.uo.id = ex.uo.id := hexid0
      have hlookex : alookup s.by_hash hx0 = some ex := by
        rw [hexh]
        exact lookup_by_hash_of_best hwf0 hexb
      obtain ⟨ret1, s1, hrem⟩ :
          ∃ r s1, s.remove_operation_internal hx0 none = (r, s1) := ⟨_, _, rfl⟩
      have hres : s.add_operation_internal env op sid? meta =
          s1.add_rest env op sid? meta := by
        unfold PoolInner.add_operation_internal
        rw [hcr]
        simp only [PoolInner.remove_operation_by_hash, hrem]
      have hwf1 : WF0 env s1 := by
        have := remove_internal_wf0 hwf0 hx0 none
        rw [hrem] at this; exact this
      have hlive1 : pmLive s1 := by
        have := remove_internal_pmLive hwf0 hlive hx0 none
        rw [hrem] at this; exact this
      have hcfg1 : s1.config = s.config ∧ s1.submission_id = s.submission_id := by
        have := remove_internal_config s hx0 none
        rw [hrem] at this; exact this
      have hle1 : s1.pool_size ≤ (s1.config.max_size_of_pool_bytes : Int) := by
        have := remove_internal_size_le s hx0 none
        rw [hrem] at this
        rw [hcfg1.1]
        exact le_trans this hle
      have hs1fields : s1.by_hash = aerase hx0 s.by_hash ∧
          s1.by_id = aerase ex.uo.id s.by_id := by
        rw [remove_internal_found_none hlookex] at hrem
        have h2 := (Prod.mk.injEq _ _ _ _ ▸ hrem).2
        rw [← h2]
        exact ⟨rfl, rfl⟩
      have hhn1 : alookup s1.by_hash (opHashOf env s1.config op.uo) = none := by
        rw [hcfg1.1, hs1fields.1]
        exact alookup_eq_none_of_sublist (aerase_sublist _ _) hhn
      have hidn1 : alookup s1.by_id op.uo.id = none := by
        rw [hs1fields.2, hexid]
        exact alookup_aerase_self hwf0.idNodup
      have hsid1 : ∀ i, sid? = some i → i ∉ liveSids s1 ∧ i < s1.submission_id := by
        intro i hi
        obtain ⟨hf, hl⟩ := hsid i hi
        refine ⟨?_, hcfg1.2 ▸ hl⟩
        intro hc
        have := remove_internal_liveSids hwf0 hx0 none (i := i)
        rw [hrem] at this
        exact hf (this hc)
      obtain ⟨h1, h2, h3, h4, h5, h6, h7⟩ :=
        add_rest_spec hwf1 hlive1 hle1 hsid1 meta hhn1 hidn1
      rw [hres]
      have hcfgall : (s1.add_rest env op sid? meta).2.config = s.config := by
        rw [h2, hcfg1.1]
      have hopeq : opHashOf env s1.config op.uo = opHashOf env s.config op.uo := by
        rw [hcfg1.1]
      refine ⟨h1, hcfgall, ?_, ?_, ?_⟩
      · intro h hok
        obtain ⟨ha, hb⟩ := h4 h hok
        refine ⟨hopeq ▸ ha, hb, ?_⟩
        intro hx hcx
        simp only [Except.ok.injEq, Option.some.injEq] at hcx
        subst hcx
        have hne : hx0 ≠ opHashOf env s1.config op.uo := by
          rw [hopeq]
          intro hc
          rw [hc, hhn] at hlookex
          exact absurd hlookex (by simp)
        have hn1 : alookup s1.by_hash hx0 = none := by
          rw [hs1fields.1]
          exact alookup_aerase_self hwf0.hashNodup
        exact h6 hx0 hne hn1
      · intro hdisc
        obtain ⟨ha, hb⟩ := h5 hdisc
        exact ⟨hopeq ▸ ha, hb⟩
      · intro msg hmsg
        rcases h7 _ hmsg with h | h <;> simp at h

theorem aerase_perm {α β : Type} [DecidableEq α] {m : List (α × β)} {a : α}
    {b : β} (nd : (akeys m).Nodup) (h : (a, b) ∈ m) :
    List.Perm m ((a, b) :: aerase a m) := by
  induction m with
  | nil => simp at h
  | cons p ps ih =>
    obtain ⟨k, v⟩ := p
    simp only [akeys, List.map_cons, List.nodup_cons] at nd
    simp only [aerase]
    split
    · rename_i hk
      subst hk
      rcases List.mem_cons.mp h with heq | hmem
      · rw [Prod.mk.injEq] at heq
        rw [heq.2]
      · exact absurd (akeys_mem_of_pair hmem) nd.1
    · rename_i hk
      have hmem : (a, b) ∈ ps := by
        rcases List.mem_cons.mp h with heq | hmem
        · rw [Prod.mk.injEq] at heq
          exact absurd heq.1.symm hk
        · exact hmem
      exact ((ih nd.2 hmem).cons (k, v)).trans (List.Perm.swap _ _ _)

theorem mine_wf {env : Env} {s : PoolInner} (hwf : WF env s) (m : MinedOp)
    (bn : Nat) :
    WF env (s.mine_operation env m bn).2 ∧
      (s.mine_operation env m bn).2.config = s.config ∧
      (s.mine_operation env m bn).2.submission_id = s.submission_id := by
  obtain ⟨hwf0, hlive, hle⟩ := hwf
  rcases hl : alookup s.by_id m.id with _ | tx
  · have hrun : s.mine_operation env m bn = (none, s) := by
      unfold PoolInner.mine_operation
      simp only [hl]
    rw [hrun]
    exact ⟨⟨hwf0, hlive, hle⟩, rfl, rfl⟩
  · have hrun : s.mine_operation env m bn =
        ({ s with paymaster_balances :=
            s.paymaster_balances.update_paymaster_balance_from_mined_op m } :
          PoolInner).remove_operation_internal
          (env.hasher tx.uo m.entry_point s.config.chain_id) (some bn) := by
      unfold PoolInner.mine_operation
      simp only [hl]
    set sp : PoolInner := { s with paymaster_balances :=
      s.paymaster_balances.update_paymaster_balance_from_mined_op m } with hsp
    have hwfsp : WF0 env sp := by
      obtain ⟨hk, hc, hnd, hik, hic, hind, hsort, hsidn, hslt, hsize, hcnd, hpt⟩ :=
        hwf0
      exact ⟨hk, hc, hnd, hik, hic, hind, hsort, hsidn, hslt, hsize, hcnd,
        PTWF_update_from_mined hpt m⟩
    have hlivesp : pmLive sp := fun c hc =>
      hlive c (update_from_mined_costs_shape _ m c hc)
    rw [hrun]
    refine ⟨⟨remove_internal_wf0 hwfsp _ _, remove_internal_pmLive hwfsp hlivesp _ _, ?_⟩,
      (remove_internal_config sp _ _).1, (remove_internal_config sp _ _).2⟩
    have h1 := remove_internal_size_le sp
      (env.hasher tx.uo m.entry_point s.config.chain_id) (some bn)
    have h2 := (remove_internal_config sp
      (env.hasher tx.uo m.entry_point s.config.chain_id) (some bn)).1
    rw [h2]
    exact le_trans h1 hle

theorem put_back_wf {env : Env} {s : PoolInner} (hwf : WF env s)
    {o : OrderedPoolOperation} (m : MinedOp)
    (hfresh : o.submission_id ∉ liveSids s)
    (hlt : o.submission_id < s.submission_id) :
    WF env (s.put_back_unmined_operation env o m).2 ∧
      (s.put_back_unmined_operation env o m).2.config = s.config := by
  obtain ⟨hwf0, hlive, hle⟩ := hwf
  rcases hpm : o.uo.paymaster with _ | p
  · have hrun : s.put_back_unmined_operation env o m =
        s.add_operation_internal env o.po (some o.submission_id) none := by
      unfold PoolInner.put_back_unmined_operation
      simp only [hpm]
    rw [hrun]
    have hspec := add_internal_spec ⟨hwf0, hlive, hle⟩ o.po (some o.submission_id)
      (fun i hi => by
        simp only [Option.some.injEq] at hi
        exact hi ▸ ⟨hfresh, hlt⟩) none
    exact ⟨hspec.1, hspec.2.1⟩
  · set sp : PoolInner := { s with paymaster_balances :=
      s.paymaster_balances.unmine_actual_cost p m.actual_gas_cost } with hsppp
    have hrun : s.put_back_unmined_operation env o m =
        sp.add_operation_internal env o.po (some o.submission_id)
          (sp.paymaster_balances.paymaster_metadata p) := by
      unfold PoolInner.put_back_unmined_operation
      simp only [hpm]
    rw [hrun]
    have hwfsp : WF0 env sp := by
      obtain ⟨hk, hc, hnd, hik, hic, hind, hsort, hsidn, hslt, hsize, hcnd, hpt⟩ :=
        hwf0
      refine ⟨hk, hc, hnd, hik, hic, hind, hsort, hsidn, hslt, hsize, hcnd, ?_⟩
      exact PTWF_unmine_actual_cost hpt p m.actual_gas_cost
    have hlivesp : pmLive sp := by
      intro c hc
      refine hlive c ?_
      have : (s.paymaster_balances.unmine_actual_cost p m.actual_gas_cost).op_costs
          = s.paymaster_balances.op_costs := by
        unfold PaymasterTracker.unmine_actual_cost
        split
        · rfl
        · split <;> rfl
      rw [← this]
      exact hc
    have hspec := add_internal_spec ⟨hwfsp, hlivesp, hle⟩ o.po (some o.submission_id)
      (fun i hi => by
        simp only [Option.some.injEq] at hi
        exact hi ▸ ⟨hfresh, hlt⟩)
      (sp.paymaster_balances.paymaster_metadata p)
    exact ⟨hspec.1, hspec.2.1⟩

theorem unmine_wf {env : Env} {s : PoolInner} (hwf : WF env s) (m : MinedOp) :
    WF env (s.unmine_operation env m).2 ∧
      (s.unmine_operation env m).2.config = s.config := by
  obtain ⟨hwf0, hlive, hle⟩ := hwf
  rcases hl : alookup s.mined_at_block_number_by_hash m.hash with _ | ⟨o, bn⟩
  · have hrun : s.unmine_operation env m = (none, s) := by
      unfold PoolInner.unmine_operation
      simp only [hl]
    rw [hrun]
    exact ⟨⟨hwf0, hlive, hle⟩, rfl⟩
  · set sc : PoolInner := { s with
      mined_at_block_number_by_hash :=
        aerase m.hash s.mined_at_block_number_by_hash
      mined_hashes_with_block_numbers :=
        s.mined_hashes_with_block_numbers.filter
          (fun p => decide (p ≠ (bn, m.hash))) } with hscdef
    have hrun : s.unmine_operation env m =
        (some o.po, (sc.put_back_unmined_operation env o m).2) := by
      unfold PoolInner.unmine_operation
      simp only [hl]
    have hpair := alookup_mem hl
    have hsidmem : o.submission_id ∈ liveSids s := by
      refine List.mem_append_right _ ?_
      exact List.mem_map.mpr ⟨(m.hash, (o, bn)), hpair, rfl⟩
    have hcperm : List.Perm (liveSids s) (o.submission_id :: liveSids sc) := by
      have h1 := aerase_perm hwf0.cacheNodup hpair
      have h2 := (h1.map fun p => p.2.1.submission_id).append_left
        (s.best.map (·.submission_id))
      refine h2.trans ?_
      simp only [List.map_cons]
      exact List.perm_middle
    have hfresh : o.submission_id ∉ liveSids sc := by
      have hnd := hcperm.nodup hwf0.sidNodup
      exact (List.nodup_cons.mp hnd).1
    have hltc : o.submission_id < s.submission_id := hwf0.sidLt _ hsidmem
    have hwfsc : WF0 env sc := by
      obtain ⟨hk, hc, hnd, hik, hic, hind, hsort, hsidn, hslt, hsize, hcnd, hpt⟩ :=
        hwf0
      refine ⟨hk, hc, hnd, hik, hic, hind, hsort, ?_, ?_, hsize,
        akeys_aerase_nodup hcnd, hpt⟩
      · exact (hcperm.nodup hsidn).sublist (List.sublist_cons_self _ _)
      · intro i hi
        exact hslt i (hcperm.mem_iff.mpr (List.mem_cons_of_mem _ hi))
    have hwfput := put_back_wf ⟨hwfsc, hlive, hle⟩ (o := o) m hfresh hltc
    rw [hrun]
    exact ⟨hwfput.1, hwfput.2⟩

theorem removeFold_wf {env : Env} (hs : List Hash) :
    ∀ (s : PoolInner), WF env s →
      WF env (hs.foldl (fun s h => (s.remove_operation_internal h none).2) s) ∧
        (hs.foldl (fun s h => (s.remove_operation_internal h none).2) s).config
          = s.config := by
  induction hs with
  | nil => intro s hwf; exact ⟨hwf, rfl⟩
  | cons h hs ih =>
    intro s hwf
    obtain ⟨hwf0, hlive, hle⟩ := hwf
    have hstep : WF env (s.remove_operation_internal h none).2 := by
      refine ⟨remove_internal_wf0 hwf0 h none,
        remove_internal_pmLive hwf0 hlive h none, ?_⟩
      rw [(remove_internal_config s h none).1]
      exact le_trans (remove_internal_size_le s h none) hle
    obtain ⟨hwfr, hcfgr⟩ := ih _ hstep
    rw [List.foldl_cons]
    exact ⟨hwfr, hcfgr.trans (remove_internal_config s h none).1⟩

/-! ## The reorg cache is untouched by live-index mutation -/

theorem remove_internal_cache_none (s : PoolInner) (h : Hash) :
    (s.remove_operation_internal h none).2.mined_at_block_number_by_hash
        = s.mined_at_block_number_by_hash ∧
      (s.remove_operation_internal h none).2.mined_hashes_with_block_numbers
        = s.mined_hashes_with_block_numbers := by
  rcases hl : alookup s.by_hash h with _ | op
  · rw [remove_internal_not_found hl]; exact ⟨rfl, rfl⟩
  · rw [remove_internal_found_none hl]; exact ⟨rfl, rfl⟩

theorem enforce_go_cache {env : Env} : ∀ (fuel : Nat) (s : PoolInner)
    (acc : List Hash),
    (PoolInner.enforce_size_go env fuel s acc).2.mined_at_block_number_by_hash
        = s.mined_at_block_number_by_hash ∧
      (PoolInner.enforce_size_go env fuel s acc).2.mined_hashes_with_block_numbers
        = s.mined_hashes_with_block_numbers := by
  intro fuel
  induction fuel with
  | zero =>
    intro s acc
    rw [PoolInner.enforce_size_go]
    split <;> exact ⟨rfl, rfl⟩
  | succ fuel ih =>
    intro s acc
    rw [PoolInner.enforce_size_go]
    split
    · rcases hlast : s.best.getLast? with _ | w
      · exact ⟨rfl, rfl⟩
      · rcases hr : ({ s with best := s.best.dropLast } : PoolInner).remove_operation_internal
            (hashOfOp env ({ s with best := s.best.dropLast } : PoolInner).config w)
            none with ⟨ret, s1⟩
        have hc1 := remove_internal_cache_none
          ({ s with best := s.best.dropLast } : PoolInner)
          (hashOfOp env ({ s with best := s.best.dropLast } : PoolInner).config w)
        rw [hr] at hc1
        rcases ret with _ | po
        · simp only [hr]
          exact hc1
        · simp only [hr]
          obtain ⟨ha, hb⟩ := ih s1 (acc ++ [hashOfOp env s.config w])
          exact ⟨ha.trans hc1.1, hb.trans hc1.2⟩
    · exact ⟨rfl, rfl⟩

theorem add_internal_cache {env : Env} (s : PoolInner) (op : PoolOperation)
    (sid? : Option Nat) (meta : Option PaymasterMetadata) :
    (s.add_operation_internal env op sid? meta).2.mined_at_block_number_by_hash
        = s.mined_at_block_number_by_hash ∧
      (s.add_operation_internal env op sid? meta).2.mined_hashes_with_block_numbers
        = s.mined_hashes_with_block_numbers := by
  have hcore : ∀ (u : PoolInner) (hsh : Hash),
      ((match u.enforce_size env with
        | (.error msg, t2) => ((.error (.Other msg) : Except MempoolError Hash), t2)
        | (.ok removed, t2) =>
          if hsh ∈ removed then (.error .DiscardedOnInsert, t2)
          else (.ok hsh, t2)) :
        Except MempoolError Hash × PoolInner).2.mined_at_block_number_by_hash
          = u.mined_at_block_number_by_hash ∧
      ((match u.enforce_size env with
        | (.error msg, t2) => ((.error (.Other msg) : Except MempoolError Hash), t2)
        | (.ok removed, t2) =>
          if hsh ∈ removed then (.error .DiscardedOnInsert, t2)
          else (.ok hsh, t2)) :
        Except MempoolError Hash × PoolInner).2.mined_hashes_with_block_numbers
          = u.mined_hashes_with_block_numbers := by
    intro u hsh
    have hgo : u.enforce_size env =
        PoolInner.enforce_size_go env (u.best.length + 1) u [] := rfl
    rcases henf : u.enforce_size env with ⟨res, u'⟩
    have hc := @enforce_go_cache env (u.best.length + 1) u []
    rw [← hgo, henf] at hc
    rcases res with msg | removed
    · simp only [henf]
      exact hc
    · simp only [henf]
      split <;> exact hc
  have hinsert : ∀ (t : PoolInner) (i : Nat),
      (t.add_insert env op i).2.mined_at_block_number_by_hash
          = t.mined_at_block_number_by_hash ∧
        (t.add_insert env op i).2.mined_hashes_with_block_numbers
          = t.mined_hashes_with_block_numbers := by
    intro t i
    exact hcore _ _
  have hfinish : ∀ (t : PoolInner),
      (t.add_finish env op sid?).2.mined_at_block_number_by_hash
          = t.mined_at_block_number_by_hash ∧
        (t.add_finish env op sid?).2.mined_hashes_with_block_numbers
          = t.mined_hashes_with_block_numbers := by
    intro t
    rcases sid? with _ | i
    · exact hinsert _ _
    · exact hinsert _ _
  have hrest : ∀ (t : PoolInner),
      (t.add_rest env op sid? meta).2.mined_at_block_number_by_hash
          = t.mined_at_block_number_by_hash ∧
        (t.add_rest env op sid? meta).2.mined_hashes_with_block_numbers
          = t.mined_hashes_with_block_numbers := by
    intro t
    unfold PoolInner.add_rest
    rcases meta with _ | m
    · exact hfinish _
    · simp only []
      rcases hpm : PaymasterTracker.add_or_update_balance env t.paymaster_balances op m
        with e | pb
      · simp only [hpm]
        constructor <;> trivial
      · simp only [hpm]
        exact hfinish _
  unfold PoolInner.add_operation_internal
  rcases hcr : s.check_replacement env op.uo with e | replaced
  · exact ⟨rfl, rfl⟩
  · rcases replaced with _ | hx
    · exact hrest s
    · have hc := remove_internal_cache_none s hx
      obtain ⟨h1, h2⟩ := hrest (s.remove_operation_internal hx none).2
      exact ⟨h1.trans hc.1, h2.trans hc.2⟩

/-! ## Pool action traces (claims about operation sequences) -/

/-- One public pool mutation, as named by the invariants of spec section 8. -/
inductive PoolAction
  | add (op : PoolOperation) (meta : Option PaymasterMetadata)
  | removeByHash (h : Hash)
  | mine (m : MinedOp) (block : Nat)
  | unmine (m : MinedOp)

def applyAction (env : Env) (s : PoolInner) : PoolAction → PoolInner
  | .add op meta => (s.add_operation env op meta).2
  | .removeByHash h => (s.remove_operation_by_hash h).2
  | .mine m bn => (s.mine_operation env m bn).2
  | .unmine m => (s.unmine_operation env m).2

/-- The pool state after a finite call sequence starting from the empty
pool. -/
def applyActions (env : Env) (cfg : PoolInnerConfig) (acts : List PoolAction) :
    PoolInner :=
  acts.foldl (applyAction env) (PoolInner.new cfg)

theorem wf_new (env : Env) (cfg : PoolInnerConfig) :
    WF env (PoolInner.new cfg) := by
  refine ⟨⟨?_, ?_, ?_, ?_, ?_, ?_, ?_, ?_, ?_, ?_, ?_, ?_⟩, ?_, ?_⟩ <;>
    first
      | exact fun p hp => absurd hp (List.not_mem_nil _)
      | exact List.Pairwise.nil
      | exact List.nodup_nil
      | exact rfl
      | exact ⟨fun p hp => absurd hp (List.not_mem_nil _), List.nodup_nil,
          List.nodup_nil, fun p hp => absurd hp (List.not_mem_nil _)⟩
      | exact Int.natCast_nonneg _

theorem applyAction_wf {env : Env} {s : PoolInner} (hwf : WF env s)
    (a : PoolAction) :
    WF env (applyAction env s a) ∧ (applyAction env s a).config = s.config := by
  rcases a with ⟨op, meta⟩ | h | ⟨m, bn⟩ | m
  · have hspec := add_internal_spec hwf op none (fun i hi => by simp at hi) meta
    exact ⟨hspec.1, hspec.2.1⟩
  · obtain ⟨hwf0, hlive, hle⟩ := hwf
    have hkey : applyAction env s (PoolAction.removeByHash h)
        = (s.remove_operation_internal h none).2 := rfl
    rw [hkey]
    refine ⟨⟨remove_internal_wf0 hwf0 h none,
      remove_internal_pmLive hwf0 hlive h none, ?_⟩,
      (remove_internal_config s h none).1⟩
    rw [(remove_internal_config s h none).1]
    exact le_trans (remove_internal_size_le s h none) hle
  · have := mine_wf hwf m bn
    exact ⟨this.1, this.2.1⟩
  · exact unmine_wf hwf m

theorem applyActions_wf (env : Env) (cfg : PoolInnerConfig)
    (acts : List PoolAction) :
    WF env (applyActions env cfg acts) ∧
      (applyActions env cfg acts).config = cfg := by
  suffices hgen : ∀ (s : PoolInner), WF env s →
      WF env (acts.foldl (applyAction env) s) ∧
        (acts.foldl (applyAction env) s).config = s.config by
    exact hgen (PoolInner.new cfg) (wf_new env cfg)
  induction acts with
  | nil => intro s hwf; exact ⟨hwf, rfl⟩
  | cons a as ih =>
    intro s hwf
    obtain ⟨h1, h2⟩ := applyAction_wf hwf a
    obtain ⟨h3, h4⟩ := ih _ h1
    rw [List.foldl_cons]
    exact ⟨h3, h4.trans h2⟩

/-! ## Index agreement under well-formedness -/

theorem wf0_hash_mem_by_id {env : Env} {s : PoolInner} (hwf : WF0 env s)
    {h : Hash} :
    h ∈ akeys s.by_hash ↔
      h ∈ s.by_id.map (fun p => hashOfOp env s.config p.2) := by
  constructor
  · intro hh
    obtain ⟨o, ho⟩ := pair_of_akeys_mem hh
    obtain ⟨hhe, hb⟩ := hwf.hashKeys _ ho
    exact List.mem_map.mpr ⟨(o.uo.id, o), hwf.idCompl o hb, hhe.symm⟩
  · intro hh
    obtain ⟨p, hp, he⟩ := List.mem_map.mp hh
    have hb := (hwf.idKeys _ hp).2
    have := akeys_mem_of_pair (hwf.hashCompl _ hb)
    rw [he] at this
    exact this

theorem wf0_hash_mem_best {env : Env} {s : PoolInner} (hwf : WF0 env s)
    {h : Hash} :
    h ∈ akeys s.by_hash ↔ h ∈ s.best.map (hashOfOp env s.config) := by
  constructor
  · intro hh
    obtain ⟨o, ho⟩ := pair_of_akeys_mem hh
    obtain ⟨hhe, hb⟩ := hwf.hashKeys _ ho
    exact List.mem_map.mpr ⟨o, hb, hhe.symm⟩
  · intro hh
    obtain ⟨o, ho, he⟩ := List.mem_map.mp hh
    have := akeys_mem_of_pair (hwf.hashCompl _ ho)
    rw [he] at this
    exact this

/-- C2: for every finite sequence of add, remove-by-hash, mine and unmine
calls starting from the empty pool, the three live indexes agree as sets:
the hash keys of by_hash are exactly the op hashes of the values of by_id
and exactly the op hashes of the members of best. -/
theorem C2_index_agreement (env : Env) (cfg : PoolInnerConfig)
    (acts : List PoolAction) (h : Hash) :
    (h ∈ akeys (applyActions env cfg acts).by_hash ↔
      h ∈ (applyActions env cfg acts).by_id.map
        (fun p => hashOfOp env (applyActions env cfg acts).config p.2)) ∧
    (h ∈ akeys (applyActions env cfg acts).by_hash ↔
      h ∈ (applyActions env cfg acts).best.map
        (hashOfOp env (applyActions env cfg acts).config)) := by
  obtain ⟨⟨hwf0, _, _⟩, _⟩ := applyActions_wf env cfg acts
  exact ⟨wf0_hash_mem_by_id hwf0, wf0_hash_mem_best hwf0⟩

/-- C3: after every finite call sequence the size counter equals the summed
mem size of the operations in best, and a further add_operation returns,
with any outcome, with the size counter within the configured byte bound. -/
theorem C3_size_accounting (env : Env) (cfg : PoolInnerConfig)
    (acts : List PoolAction) (op : PoolOperation)
    (meta : Option PaymasterMetadata) :
    (applyActions env cfg acts).pool_size
        = bestSizeSum (applyActions env cfg acts).best ∧
      ((applyActions env cfg acts).add_operation env op meta).2.pool_size
        ≤ (cfg.max_size_of_pool_bytes : Int) := by
  obtain ⟨⟨hwf0, hlive, hle⟩, hcfg⟩ := applyActions_wf env cfg acts
  refine ⟨hwf0.sizeEq, ?_⟩
  have hspec := add_internal_spec ⟨hwf0, hlive, hle⟩ op none
    (fun i hi => by simp at hi) meta
  have h1 := hspec.1.2.2
  have h2 := hspec.2.1
  rw [h2, hcfg] at h1
  exact h1

/-! ## Transaction tracker (crates/builder/src/transaction_tracker.rs) -/

inductive TxStatus
  | Pending
  | Mined (block_number : Nat)
  | Dropped
deriving DecidableEq, Repr

structure GasFees where
  max_fee_per_gas : Nat
  max_priority_fee_per_gas : Nat
deriving DecidableEq, Repr

structure PendingTransaction where
  tx_hash : Hash
  gas_fees : GasFees
  attempt_number : Nat
deriving DecidableEq, Repr

/-- The mutable state of TransactionTrackerImplInner (the provider, sender
and settings collaborators are factored out into ChainView below). -/
structure TrackerState where
  nonce : Nat
  transactions : List PendingTransaction
  has_dropped : Bool
  attempt_count : Nat
deriving DecidableEq, Repr

/-- One consistent set of answers from the chain provider and transaction
sender during a single check_for_update_now call: the external nonce of
the account and, per transaction hash, its status and receipt gas data. -/
structure ChainView where
  external_nonce : Nat
  tx_status : Hash → TxStatus
  tx_gas_limit : Hash → Option Nat
  tx_gas_used : Hash → Option Nat

inductive TrackerUpdate
  | Mined (tx_hash : Hash) (nonce : Nat) (block_number : Nat)
      (attempt_number : Nat) (gas_limit : Option Nat) (gas_used : Option Nat)
  | StillPendingAfterWait
  | LatestTxDropped (nonce : Nat)
  | NonceUsedForOtherTx (nonce : Nat)
  | ReplacementUnderpriced
deriving DecidableEq, Repr

/-- set_nonce_and_clear_state of transaction_tracker.rs. -/
def TrackerState.set_nonce_and_clear_state (_s : TrackerState) (nonce : Nat) :
    TrackerState :=
  { nonce := nonce, transactions := [], has_dropped := false, attempt_count := 0 }

/-- The reverse scan of check_for_update_now: the first attempt (walking
the recorded attempts newest-first) whose status is Mined. -/
def findMinedRev (cv : ChainView) :
    List PendingTransaction → Option (PendingTransaction × Nat)
  | [] => none
  | tx :: rest =>
    match cv.tx_status tx.tx_hash with
    | .Mined block_number => some (tx, block_number)
    | _ => findMinedRev cv rest

/-- check_for_update_now of transaction_tracker.rs, on a chain view whose
reads all succeed. -/
def TrackerState.check_for_update_now (cv : ChainView) (s : TrackerState) :
    Option TrackerUpdate × TrackerState :=
  if s.nonce < cv.external_nonce then
    let out :=
      match findMinedRev cv s.transactions.reverse with
      | some (tx, block_number) =>
        TrackerUpdate.Mined tx.tx_hash s.nonce block_number tx.attempt_number
          (cv.tx_gas_limit tx.tx_hash) (cv.tx_gas_used tx.tx_hash)
      | none => .NonceUsedForOtherTx s.nonce
    (some out, s.set_nonce_and_clear_state cv.external_nonce)
  else if s.has_dropped then (none, s)
  else
    match s.transactions.getLast? with
    | none => (none, s)
    | some last_tx =>
      match cv.tx_status last_tx.tx_hash with
      | .Pending => (none, s)
      | .Dropped => (none, s)
      | .Mined block_number =>
        let nonce := s.nonce
        let s := s.set_nonce_and_clear_state (nonce + 1)
        (some (.Mined last_tx.tx_hash nonce block_number last_tx.attempt_number
          (cv.tx_gas_limit last_tx.tx_hash) (cv.tx_gas_used last_tx.tx_hash)), s)

/-! ## Local pool server chain-update handling (crates/pool/src/server/local.rs) -/

/-- Fields of a chain update consumed by the server loop (the chain module
is not part of the sampled tree; fields follow the consumed interface). -/
structure ChainUpdate where
  latest_block_hash : Hash
  latest_block_number : Nat
  mined_ops : List MinedOp
  unmined_ops : List MinedOp
deriving Repr

structure NewHead where
  block_hash : Hash
  block_number : Nat
deriving DecidableEq, Repr

/-- Observable steps of the server loop while handling one chain update:
completion of an on_chain_update call on the mempool at a given index, or
the publication of a new head on the broadcast channel. -/
inductive ServerEvent
  | on_chain_update_completed (index : Nat)
  | new_head_published (head : NewHead)
deriving DecidableEq, Repr

/-- The chain-update arm of LocalPoolServerRunner::run: sequentially await
on_chain_update on every registered mempool, then send the new head. The
returned trace lists the completions and the publication in execution
order; the returned list holds the mempool states after the update. -/
def handle_chain_update {M : Type} (on_chain_update : ChainUpdate → M → M)
    (u : ChainUpdate) (mempools : List M) : List ServerEvent × List M :=
  ((List.range mempools.length).map .on_chain_update_completed ++
      [.new_head_published ⟨u.latest_block_hash, u.latest_block_number⟩],
   mempools.map (on_chain_update u))

/-! ## Facts about the reverse mined scan -/

theorem findMinedRev_append (cv : ChainView) (l1 l2 : List PendingTransaction) :
    findMinedRev cv (l1 ++ l2)
      = match findMinedRev cv l1 with
        | some r => some r
        | none => findMinedRev cv l2 := by
  induction l1 with
  | nil => rfl
  | cons t ts ih =>
    rcases hs : cv.tx_status t.tx_hash with _ | bn | _
    · simp only [List.cons_append, findMinedRev, hs]
      exact ih
    · simp only [List.cons_append, findMinedRev, hs]
    · simp only [List.cons_append, findMinedRev, hs]
      exact ih

theorem findMinedRev_eq_none {cv : ChainView} {l : List PendingTransaction}
    (h : ∀ tx ∈ l, ∀ bn, cv.tx_status tx.tx_hash ≠ .Mined bn) :
    findMinedRev cv l = none := by
  induction l with
  | nil => rfl
  | cons t ts ih =>
    rcases hs : cv.tx_status t.tx_hash with _ | bn | _
    · simp only [findMinedRev, hs]
      exact ih fun tx htx => h tx (List.mem_cons_of_mem _ htx)
    · exact absurd hs (h t (List.mem_cons_self _ _) bn)
    · simp only [findMinedRev, hs]
      exact ih fun tx htx => h tx (List.mem_cons_of_mem _ htx)

/-- C8: when the externally observed nonce is ahead of the tracker, the
tracker state is reset to the external nonce with the attempts cleared, the
dropped flag lowered and the attempt count zeroed; the returned update is
Mined for the newest recorded attempt the chain reports mined, and
NonceUsedForOtherTx carrying the old nonce when no attempt is mined. -/
theorem C8_nonce_advanced {cv : ChainView} {s : TrackerState}
    (h : s.nonce < cv.external_nonce) :
    (TrackerState.check_for_update_now cv s).2
        = ⟨cv.external_nonce, [], false, 0⟩ ∧
      ((∀ tx ∈ s.transactions, ∀ bn, cv.tx_status tx.tx_hash ≠ .Mined bn) →
        (TrackerState.check_for_update_now cv s).1
          = some (.NonceUsedForOtherTx s.nonce)) ∧
      (∀ pre tx post bn, s.transactions = pre ++ tx :: post →
        (∀ tx2 ∈ post, ∀ bn2, cv.tx_status tx2.tx_hash ≠ .Mined bn2) →
        cv.tx_status tx.tx_hash = .Mined bn →
        (TrackerState.check_for_update_now cv s).1
          = some (.Mined tx.tx_hash s.nonce bn tx.attempt_number
              (cv.tx_gas_limit tx.tx_hash) (cv.tx_gas_used tx.tx_hash))) := by
  have hmain : ∀ r, findMinedRev cv s.transactions.reverse = r →
      TrackerState.check_for_update_now cv s
        = (some (match r with
            | some (tx, bn2) =>
              TrackerUpdate.Mined tx.tx_hash s.nonce bn2 tx.attempt_number
                (cv.tx_gas_limit tx.tx_hash) (cv.tx_gas_used tx.tx_hash)
            | none => .NonceUsedForOtherTx s.nonce),
           (⟨cv.external_nonce, [], false, 0⟩ : TrackerState)) := by
    intro r hr
    unfold TrackerState.check_for_update_now
    rw [if_pos h]
    simp only [hr]
    rcases r with _ | ⟨tx, bn2⟩ <;> rfl
  rcases hfm : findMinedRev cv s.transactions.reverse with _ | ⟨tx0, bn0⟩
  · have heq := hmain _ hfm
    refine ⟨by rw [heq], fun _ => by rw [heq], ?_⟩
    intro pre tx post bn hsplit hpost hmined
    have hsome : findMinedRev cv s.transactions.reverse = some (tx, bn) := by
      rw [hsplit, List.reverse_append, List.reverse_cons, List.append_assoc,
        findMinedRev_append]
      rw [findMinedRev_eq_none fun t2 ht2 => hpost t2 (List.mem_reverse.mp ht2)]
      simp only [List.cons_append, List.nil_append, findMinedRev, hmined]
    rw [hfm] at hsome
    exact absurd hsome (by simp)
  · have heq := hmain _ hfm
    refine ⟨by rw [heq], ?_, ?_⟩
    · intro hnone
      have := findMinedRev_eq_none
        fun tx htx => hnone tx (List.mem_reverse.mp htx)
      rw [hfm] at this
      exact absurd this (by simp)
    · intro pre tx post bn hsplit hpost hmined
      have hsome : findMinedRev cv s.transactions.reverse = some (tx, bn) := by
        rw [hsplit, List.reverse_append, List.reverse_cons, List.append_assoc,
          findMinedRev_append]
        rw [findMinedRev_eq_none fun t2 ht2 => hpost t2 (List.mem_reverse.mp ht2)]
        simp only [List.cons_append, List.nil_append, findMinedRev, hmined]
      rw [hfm] at hsome
      simp only [Option.some.injEq, Prod.mk.injEq] at hsome
      rw [heq]
      simp only [hsome.1, hsome.2]

/-- C9: handling one chain update maps on_chain_update over every
registered mempool, and in the event trace all completions precede the
single head publication, which carries the block hash and number of the
update and closes the trace. -/
theorem C9_chain_update_order {M : Type} (f : ChainUpdate → M → M)
    (u : ChainUpdate) (ms : List M) :
    (handle_chain_update f u ms).2 = ms.map (f u) ∧
      (handle_chain_update f u ms).1.getLast?
        = some (.new_head_published ⟨u.latest_block_hash,
            u.latest_block_number⟩) ∧
      (∀ i < ms.length,
        ServerEvent.on_chain_update_completed i
          ∈ (handle_chain_update f u ms).1.dropLast) ∧
      (∀ e ∈ (handle_chain_update f u ms).1.dropLast,
        ∃ i < ms.length, e = .on_chain_update_completed i) := by
  refine ⟨rfl, ?_, ?_, ?_⟩
  · show (((List.range ms.length).map ServerEvent.on_chain_update_completed)
        ++ [ServerEvent.new_head_published _]).getLast? = _
    rw [List.getLast?_concat]
  · intro i hi
    show _ ∈ (((List.range ms.length).map ServerEvent.on_chain_update_completed)
        ++ [ServerEvent.new_head_published _]).dropLast
    rw [List.dropLast_concat]
    exact List.mem_map.mpr ⟨i, List.mem_range.mpr hi, rfl⟩
  · intro e he
    rw [show (handle_chain_update f u ms).1.dropLast
        = (((List.range ms.length).map ServerEvent.on_chain_update_completed)
          ++ [ServerEvent.new_head_published
            ⟨u.latest_block_hash, u.latest_block_number⟩]).dropLast from rfl,
      List.dropLast_concat] at he
    obtain ⟨i, hi, hie⟩ := List.mem_map.mp he
    exact ⟨i, List.mem_range.mp hi, hie.symm⟩

/-- Re-admitting an unmined operation never touches the two reorg cache
indexes, whatever the outcome of the attempt. -/
theorem put_back_cache {env : Env} (s : PoolInner)
    (op : OrderedPoolOperation) (m : MinedOp) :
    (s.put_back_unmined_operation env op m).2.mined_at_block_number_by_hash
        = s.mined_at_block_number_by_hash ∧
      (s.put_back_unmined_operation env op m).2.mined_hashes_with_block_numbers
        = s.mined_hashes_with_block_numbers := by
  unfold PoolInner.put_back_unmined_operation
  rcases hp : op.uo.paymaster with _ | p
  · simp only [hp]
    exact add_internal_cache s op.po (some op.submission_id) none
  · simp only [hp]
    exact add_internal_cache _ op.po (some op.submission_id) _

/-- C10: an operation found in the reorg cache under the mined hash is
dropped from both cache indexes and returned as Some of the original
operation, independently of whether the re-admission into the live pool
succeeds. -/
theorem C10_unmine_returns {env : Env} {s : PoolInner} {m : MinedOp}
    {o : OrderedPoolOperation} {bn : Nat}
    (hl : alookup s.mined_at_block_number_by_hash m.hash = some (o, bn)) :
    (s.unmine_operation env m).1 = some o.po ∧
      (s.unmine_operation env m).2.mined_at_block_number_by_hash
        = aerase m.hash s.mined_at_block_number_by_hash ∧
      (s.unmine_operation env m).2.mined_hashes_with_block_numbers
        = s.mined_hashes_with_block_numbers.filter
            (fun p => decide (p ≠ (bn, m.hash))) := by
  unfold PoolInner.unmine_operation
  simp only [hl]
  refine ⟨trivial, ?_, ?_⟩
  · exact (put_back_cache _ o m).1
  · exact (put_back_cache _ o m).2

/-- C1 (amended): when an operation with the same UserOpId is present and
the incoming operation is not byte identical to a stored one (its hash is
not already known), add_operation succeeds only if both incoming fees
clear the percentage-increased fees of the existing operation, success
leaves exactly the new operation under that UserOpId with the existing
operation gone from every live index, and fees below either threshold
yield exactly ReplacementUnderpriced with the existing priority fee and
max fee, in that order, leaving the pool untouched. -/
theorem C1_replacement_semantics {env : Env} {s : PoolInner} (hwf : WF env s)
    (op : PoolOperation) (meta : Option PaymasterMetadata)
    {ex : OrderedPoolOperation}
    (hex : alookup s.by_id op.uo.id = some ex)
    (hnew : alookup s.by_hash (opHashOf env s.config op.uo) = none) :
    (∀ h, (s.add_operation env op meta).1 = .ok h →
      increase_by_percent ex.uo.max_priority_fee_per_gas
          s.config.min_replacement_fee_increase_percentage
        ≤ op.uo.max_priority_fee_per_gas ∧
      increase_by_percent ex.uo.max_fee_per_gas
          s.config.min_replacement_fee_increase_percentage
        ≤ op.uo.max_fee_per_gas ∧
      (∃ sid, alookup (s.add_operation env op meta).2.by_id op.uo.id
          = some ⟨op, sid⟩) ∧
      alookup (s.add_operation env op meta).2.by_hash
          (opHashOf env s.config ex.uo) = none ∧
      ∀ o ∈ (s.add_operation env op meta).2.best, o.uo ≠ ex.uo) ∧
    ((op.uo.max_priority_fee_per_gas <
        increase_by_percent ex.uo.max_priority_fee_per_gas
          s.config.min_replacement_fee_increase_percentage ∨
      op.uo.max_fee_per_gas <
        increase_by_percent ex.uo.max_fee_per_gas
          s.config.min_replacement_fee_increase_percentage) →
      s.add_operation env op meta
        = (.error (.ReplacementUnderpriced ex.uo.max_priority_fee_per_gas
            ex.uo.max_fee_per_gas), s)) := by
  have hdef : s.add_operation env op meta
      = s.add_operation_internal env op none meta := rfl
  rw [hdef]
  obtain ⟨hwfr, hcfgr, hok, hdisc, hother⟩ :=
    add_internal_spec hwf op none (fun i hi => by simp at hi) meta
  constructor
  · intro h hok1
    by_cases hfee : op.uo.max_priority_fee_per_gas <
        increase_by_percent ex.uo.max_priority_fee_per_gas
          s.config.min_replacement_fee_increase_percentage ∨
        op.uo.max_fee_per_gas <
          increase_by_percent ex.uo.max_fee_per_gas
            s.config.min_replacement_fee_increase_percentage
    · exfalso
      have hcr := check_replacement_underpriced hnew hex hfee
      have hres : s.add_operation_internal env op none meta
          = (.error (.ReplacementUnderpriced ex.uo.max_priority_fee_per_gas
              ex.uo.max_fee_per_gas), s) := by
        unfold PoolInner.add_operation_internal
        rw [hcr]
      rw [hres] at hok1
      exact absurd hok1 (by simp)
    · rw [not_or, not_lt, not_lt] at hfee
      have hfee2 : ¬ (op.uo.max_priority_fee_per_gas <
            (s.get_min_replacement_fees ex.uo).1 ∨
          op.uo.max_fee_per_gas < (s.get_min_replacement_fees ex.uo).2) := by
        simp only [PoolInner.get_min_replacement_fees, not_or, not_lt]
        exact hfee
      have hcr2 : s.check_replacement env op.uo
          = .ok (some (opHashOf env s.config ex.uo)) := by
        unfold PoolInner.check_replacement
        simp only [hnew, Option.isSome_none, Bool.false_eq_true, if_false, hex]
        rw [if_neg hfee2]
      obtain ⟨hh, ⟨sid, hbh, hbid⟩, hrepl⟩ := hok h hok1
      have hexnone := hrepl _ hcr2
      refine ⟨hfee.1, hfee.2, ⟨sid, hbid⟩, hexnone, ?_⟩
      intro o ho hoeq
      have hpair := hwfr.1.hashCompl o ho
      have hsomeo : alookup (s.add_operation_internal env op none meta).2.by_hash
          (hashOfOp env (s.add_operation_internal env op none meta).2.config o)
          = some o :=
        alookup_eq_some_of_mem hwfr.1.hashNodup hpair
      rw [show hashOfOp env (s.add_operation_internal env op none meta).2.config o
          = opHashOf env s.config ex.uo from by
        rw [hashOfOp, hcfgr, hoeq]] at hsomeo
      rw [hexnone] at hsomeo
      exact absurd hsomeo (by simp)
  · intro hlow
    have hcr := check_replacement_underpriced hnew hex hlow
    unfold PoolInner.add_operation_internal
    rw [hcr]

/-! ## The throttle filter as a selection predicate -/

theorem throttleFilter_spec (cfg : PoolInnerConfig) (entity : Entity)
    (head : Nat) :
    ∀ (l : List OrderedPoolOperation) (k : Nat), l.Nodup →
      throttleFilter cfg entity head l k
        = l.filter (throttleRemoves cfg entity head l k) := by
  intro l
  induction l with
  | nil => intro k _; rfl
  | cons o os ih =>
    intro k hnd
    obtain ⟨hno, hndos⟩ := List.nodup_cons.mp hnd
    rcases hE : o.po.contains_entity entity
    · have hKeq : throttleKeep cfg entity head (o :: os) k
          = throttleKeep cfg entity head os k := by
        unfold throttleKeep
        rw [List.filter_cons_of_neg (by rw [hE, Bool.false_and]; simp)]
      have hL : throttleFilter cfg entity head (o :: os) k
          = throttleFilter cfg entity head os k := by
        simp only [throttleFilter, hE, Bool.false_eq_true, if_false]
      have hPo : ¬ throttleRemoves cfg entity head (o :: os) k o = true := by
        unfold throttleRemoves
        rw [hE, Bool.false_and]
        simp
      rw [hL, List.filter_cons_of_neg hPo, ih k hndos]
      exact List.filter_congr fun x hx => by
        unfold throttleRemoves
        rw [hKeq]
    · rcases hSt : throttleStale cfg head o
      · have heligo : (fun x : OrderedPoolOperation =>
            x.po.contains_entity entity && !(throttleStale cfg head x)) o
              = true := by
          simp only []
          rw [hE, hSt]; rfl
        have hstaleP : ¬ (o.po.sim_block_number
            + cfg.throttled_entity_live_blocks < head) :=
          of_decide_eq_false hSt
        rcases k with _ | k
        · have hKnil : throttleKeep cfg entity head (o :: os) 0 = [] :=
            List.take_zero _
          have hKnil2 : throttleKeep cfg entity head os 0 = [] :=
            List.take_zero _
          have hL : throttleFilter cfg entity head (o :: os) 0
              = o :: throttleFilter cfg entity head os 0 := by
            simp only [throttleFilter, hE, if_true]
            rw [if_pos]
            exact Or.inr (by trivial)
          have hPo : throttleRemoves cfg entity head (o :: os) 0 o = true := by
            unfold throttleRemoves
            rw [hE, hKnil]
            simp
          rw [hL, List.filter_cons_of_pos hPo, ih 0 hndos]
          refine congrArg (fun t => o :: t) ?_
          exact List.filter_congr fun x hx => by
            unfold throttleRemoves
            rw [hKnil, hKnil2]
        · have hKcons : throttleKeep cfg entity head (o :: os) (k + 1)
              = o :: throttleKeep cfg entity head os k := by
            unfold throttleKeep
            rw [List.filter_cons, if_pos heligo, List.take_succ_cons]
          have hL : throttleFilter cfg entity head (o :: os) (k + 1)
              = throttleFilter cfg entity head os k := by
            simp only [throttleFilter, hE, if_true]
            rw [if_neg]
            · exact rfl
            · rintro (h | h)
              · exact hstaleP h
              · simp at h
          have hPo : ¬ throttleRemoves cfg entity head (o :: os) (k + 1) o
              = true := by
            unfold throttleRemoves
            rw [hE, hSt, hKcons]
            simp
          rw [hL, List.filter_cons_of_neg hPo, ih k hndos]
          exact List.filter_congr fun x hx => by
            unfold throttleRemoves
            rw [hKcons]
            have hxo : x ≠ o := fun hc => hno (hc ▸ hx)
            have hdd : decide (x ∈ o :: throttleKeep cfg entity head os k)
                = decide (x ∈ throttleKeep cfg entity head os k) := by
              apply decide_eq_decide.mpr
              constructor
              · intro hm
                rcases List.mem_cons.mp hm with hxo2 | hm2
                · exact absurd hxo2 hxo
                · exact hm2
              · exact List.mem_cons_of_mem _
            rw [hdd]
      · have hstaleP : o.po.sim_block_number
            + cfg.throttled_entity_live_blocks < head :=
          of_decide_eq_true hSt
        have hKeq : throttleKeep cfg entity head (o :: os) k
            = throttleKeep cfg entity head os k := by
          unfold throttleKeep
          rw [List.filter_cons_of_neg (by rw [hE, hSt]; simp)]
        have hL : throttleFilter cfg entity head (o :: os) k
            = o :: throttleFilter cfg entity head os k := by
          simp only [throttleFilter, hE, if_true]
          rw [if_pos (Or.inl hstaleP)]
        have hPo : throttleRemoves cfg entity head (o :: os) k o = true := by
          unfold throttleRemoves
          rw [hE, hSt]
          rfl
        rw [hL, List.filter_cons_of_pos hPo, ih k hndos]
        refine congrArg (fun t => o :: t) ?_
        exact List.filter_congr fun x hx => by
          unfold throttleRemoves
          rw [hKeq]

/-- Folding remove_operation_internal over the hashes of a duplicate-free
selection from best removes exactly the selected operations from best. -/
theorem removeFold_best {env : Env} :
    ∀ (R : List OrderedPoolOperation) (s : PoolInner), WF0 env s →
      (∀ r ∈ R, r ∈ s.best) → R.Nodup →
      WF0 env ((R.map (hashOfOp env s.config)).foldl
          (fun u h => (u.remove_operation_internal h none).2) s) ∧
        ((R.map (hashOfOp env s.config)).foldl
            (fun u h => (u.remove_operation_internal h none).2) s).config
          = s.config ∧
        ∀ o, o ∈ ((R.map (hashOfOp env s.config)).foldl
            (fun u h => (u.remove_operation_internal h none).2) s).best ↔
          (o ∈ s.best ∧ o ∉ R) := by
  intro R
  induction R with
  | nil =>
    intro s hwf _ _
    exact ⟨hwf, rfl, fun o => by simp⟩
  | cons r R ih =>
    intro s hwf hsub hnd
    obtain ⟨hnr, hndR⟩ := List.nodup_cons.mp hnd
    have hrb : r ∈ s.best := hsub r (List.mem_cons_self _ _)
    have hlook : alookup s.by_hash (hashOfOp env s.config r) = some r :=
      lookup_by_hash_of_best hwf hrb
    obtain ⟨r1, s1, hrem⟩ :
        ∃ a b, s.remove_operation_internal (hashOfOp env s.config r) none
          = (a, b) := ⟨_, _, rfl⟩
    have hwf1 : WF0 env s1 := by
      have := remove_internal_wf0 hwf (hashOfOp env s.config r) none
      rw [hrem] at this
      exact this
    have hcfg1 : s1.config = s.config := by
      have := (remove_internal_config s (hashOfOp env s.config r) none).1
      rw [hrem] at this
      exact this
    have hbest1 : s1.best = btreeRemove r s.best := by
      rw [remove_internal_found_none hlook] at hrem
      injection hrem with h1 h2
      rw [← h2]
    have hmem1 : ∀ o, o ∈ s1.best ↔ (o ∈ s.best ∧ o ≠ r) := by
      intro o
      rw [hbest1]
      exact mem_btreeRemove_iff hwf.bestSorted hrb
    have hfold : (((r :: R).map (hashOfOp env s.config)).foldl
          (fun u h => (u.remove_operation_internal h none).2) s)
        = ((R.map (hashOfOp env s.config)).foldl
          (fun u h => (u.remove_operation_internal h none).2) s1) := by
      rw [List.map_cons, List.foldl_cons]
      rw [show (s.remove_operation_internal (hashOfOp env s.config r) none).2
        = s1 from by rw [hrem]]
    have hmapeq : R.map (hashOfOp env s.config)
        = R.map (hashOfOp env s1.config) := by
      rw [hcfg1]
    have hsub1 : ∀ r2 ∈ R, r2 ∈ s1.best := by
      intro r2 hr2
      refine (hmem1 r2).mpr ⟨hsub r2 (List.mem_cons_of_mem _ hr2), ?_⟩
      rintro rfl
      exact hnr hr2
    obtain ⟨ihwf, ihcfg, ihmem⟩ := ih s1 hwf1 hsub1 hndR
    rw [hfold, hmapeq]
    refine ⟨ihwf, ihcfg.trans hcfg1, ?_⟩
    intro o
    rw [ihmem o, hmem1 o]
    constructor
    · rintro ⟨⟨hb, hne⟩, hni⟩
      refine ⟨hb, ?_⟩
      intro hc
      rcases List.mem_cons.mp hc with hc2 | hc2
      · exact hne hc2
      · exact hni hc2
    · rintro ⟨hb, hni⟩
      exact ⟨⟨hb, fun hc => hni (hc ▸ List.mem_cons_self _ _)⟩,
        fun hc => hni (List.mem_cons_of_mem _ hc)⟩

/-- C6: throttle_entity returns exactly the hashes, in best order, of the
operations that declare the entity and are stale or beyond the keep
budget of non-stale declarations, and afterwards best holds exactly the
operations not selected by that rule. -/
theorem C6_throttle_entity {env : Env} {s : PoolInner} (hwf : WF env s)
    (entity : Entity) (head : Nat) :
    (s.throttle_entity env entity head).1
        = ((s.best.filter (throttleRemoves s.config entity head s.best
              s.config.throttled_entity_mempool_count)).map
            (hashOfOp env s.config)) ∧
      ∀ o, o ∈ (s.throttle_entity env entity head).2.best ↔
        (o ∈ s.best ∧
          throttleRemoves s.config entity head s.best
            s.config.throttled_entity_mempool_count o = false) := by
  obtain ⟨hwf0, hlive, hle⟩ := hwf
  have hnd : s.best.Nodup := sorted_nodup hwf0.bestSorted
  have hf := throttleFilter_spec s.config entity head s.best
    s.config.throttled_entity_mempool_count hnd
  constructor
  · show (throttleFilter s.config entity head s.best
        s.config.throttled_entity_mempool_count).map (hashOfOp env s.config)
      = _
    rw [hf]
  · have hsubR : ∀ r ∈ s.best.filter (throttleRemoves s.config entity head
        s.best s.config.throttled_entity_mempool_count), r ∈ s.best :=
      fun r hr => List.mem_of_mem_filter hr
    have hndR : (s.best.filter (throttleRemoves s.config entity head s.best
        s.config.throttled_entity_mempool_count)).Nodup :=
      hnd.filter _
    obtain ⟨_, _, hmem⟩ := removeFold_best
      (s.best.filter (throttleRemoves s.config entity head s.best
        s.config.throttled_entity_mempool_count)) s hwf0 hsubR hndR
    have hkey : (s.throttle_entity env entity head).2
        = (((s.best.filter (throttleRemoves s.config entity head s.best
              s.config.throttled_entity_mempool_count)).map
            (hashOfOp env s.config)).foldl
          (fun u h => (u.remove_operation_internal h none).2) s) := by
      show ((throttleFilter s.config entity head s.best
            s.config.throttled_entity_mempool_count).map
          (hashOfOp env s.config)).foldl
            (fun u h => (u.remove_operation_internal h none).2) s = _
      rw [hf]
    intro o
    rw [hkey, hmem o]
    constructor
    · rintro ⟨hb, hni⟩
      refine ⟨hb, ?_⟩
      rcases hro : throttleRemoves s.config entity head s.best
          s.config.throttled_entity_mempool_count o
      · rfl
      · exact absurd (List.mem_filter.mpr ⟨hb, hro⟩) hni
    · rintro ⟨hb, hro⟩
      refine ⟨hb, ?_⟩
      intro hc
      rw [(List.mem_filter.mp hc).2] at hro
      exact Bool.true_eq_false.mp hro

/-- C7: an add_operation that fails DiscardedOnInsert leaves the rejected
operation absent from by_hash, by_id and best, with no paymaster per-op
cost recorded for it and the ledger pending debits consistent with the
recorded costs, so the reservation made during the add has been
released. -/
theorem C7_discarded_on_insert {env : Env} {s : PoolInner} (hwf : WF env s)
    (op : PoolOperation) (meta : Option PaymasterMetadata)
    (hres : (s.add_operation env op meta).1 = .error .DiscardedOnInsert) :
    alookup (s.add_operation env op meta).2.by_hash
        (opHashOf env s.config op.uo) = none ∧
      alookup (s.add_operation env op meta).2.by_id op.uo.id = none ∧
      (∀ o ∈ (s.add_operation env op meta).2.best, o.uo ≠ op.uo) ∧
      alookup (s.add_operation env op meta).2.paymaster_balances.op_costs
        op.uo.id = none ∧
      PTWF (s.add_operation env op meta).2.paymaster_balances := by
  have hdef : s.add_operation env op meta
      = s.add_operation_internal env op none meta := rfl
  rw [hdef] at hres ⊢
  obtain ⟨hwfr, hcfgr, _, hdisc, _⟩ :=
    add_internal_spec hwf op none (fun i hi => by simp at hi) meta
  obtain ⟨hh, hid⟩ := hdisc hres
  refine ⟨hh, hid, ?_, ?_, hwfr.1.ptwf⟩
  · intro o ho hoeq
    have hpair := hwfr.1.hashCompl o ho
    have hsomeo : alookup (s.add_operation_internal env op none meta).2.by_hash
        (hashOfOp env (s.add_operation_internal env op none meta).2.config o)
        = some o :=
      alookup_eq_some_of_mem hwfr.1.hashNodup hpair
    rw [show hashOfOp env (s.add_operation_internal env op none meta).2.config o
        = opHashOf env s.config op.uo from by
      rw [hashOfOp, hcfgr, hoeq]] at hsomeo
    rw [hh] at hsomeo
    exact absurd hsomeo (by simp)
  · rcases hc : alookup
        (s.add_operation_internal env op none meta).2.paymaster_balances.op_costs
        op.uo.id with _ | c
    · rfl
    · exfalso
      obtain ⟨o, ho, hoid⟩ := hwfr.2.1 _ (alookup_mem hc)
      have := lookup_by_id_of_best hwfr.1 ho
      rw [show o.uo.id = op.uo.id from hoid, hid] at this
      exact absurd this (by simp)

/-! ## Concrete scenario inputs (spec section 8) -/

/-- Configuration used by the concrete scenarios. -/
def cfgBase : PoolInnerConfig :=
  { entry_point := 7
    chain_id := 1
    max_size_of_pool_bytes := 1000
    min_replacement_fee_increase_percentage := 10
    throttled_entity_mempool_count := 2
    throttled_entity_live_blocks := 10
    paymaster_tracking_enabled := true }

/-- A concrete environment: a hasher injective on the scenario operations
and the max fee as the reserved paymaster cost. -/
def env0 : Env :=
  { hasher := fun uo ep cid =>
      ep * 100000000000 + cid * 10000000000 + uo.sender * 100000000 +
        uo.nonce * 1000000 + uo.max_fee_per_gas * 1000 +
        uo.max_priority_fee_per_gas
    max_cost := fun po => po.uo.max_fee_per_gas }

/-- A paymaster-free user operation at nonce zero. -/
def uopOf (sender fee prio : Nat) : UserOperation :=
  ⟨sender, 0, fee, prio, none, none, none⟩

/-- A paymaster-free pool operation of mem size 4 plus the base struct. -/
def popOf (sender fee prio sim : Nat) : PoolOperation :=
  ⟨uopOf sender fee prio, ⟨0, 0⟩, sim, 4⟩

/-- A pool operation using paymaster 50. -/
def popP (sender fee prio sim : Nat) : PoolOperation :=
  ⟨⟨sender, 0, fee, prio, some 50, none, none⟩, ⟨0, 0⟩, sim, 4⟩

/-- Byte bound fitting exactly twenty scenario operations. -/
def cfg20 : PoolInnerConfig := { cfgBase with max_size_of_pool_bytes := 400 }

/-- Twenty operations with max fees one to twenty filling the pool. -/
def pool20 : PoolInner :=
  applyActions env0 cfg20
    ((List.range 20).map fun i => .add (popOf (i + 1) (i + 1) 1 0) none)

/-- One resident operation for the replacement scenario. -/
def c1Pool : PoolInner :=
  applyActions env0 cfgBase [.add (popOf 1 100 10 0) none]

/-- The resident operation of c1Pool as stored. -/
def c1Ex : OrderedPoolOperation := ⟨popOf 1 100 10 0, 0⟩

/-- A replacement with both fees at the ten percent thresholds. -/
def c1New : PoolOperation := popOf 1 110 11 0

/-- Byte bound fitting exactly two scenario operations. -/
def cfg7 : PoolInnerConfig := { cfgBase with max_size_of_pool_bytes := 40 }

/-- A full two-element pool with paymaster reservations. -/
def c7Pool : PoolInner :=
  applyActions env0 cfg7
    [.add (popP 1 5 1 0) (some ⟨50, 1000⟩),
     .add (popP 2 6 1 0) (some ⟨50, 1000⟩)]

/-- Five users of paymaster 50 at simulation blocks 80, 85, 92, 98, 99. -/
def c6Pool : PoolInner :=
  applyActions env0 cfgBase
    [.add (popP 1 5 1 80) (some ⟨50, 1000⟩),
     .add (popP 2 5 1 85) (some ⟨50, 1000⟩),
     .add (popP 3 5 1 92) (some ⟨50, 1000⟩),
     .add (popP 4 5 1 98) (some ⟨50, 1000⟩),
     .add (popP 5 5 1 99) (some ⟨50, 1000⟩)]

/-- The throttled paymaster entity. -/
def entityP : Entity := ⟨.paymaster, 50⟩

/-- The operation mined and unmined in the reorg scenario. -/
def c10Op : PoolOperation := popOf 1 100 10 0

/-- The mined record for c10Op: same entry point, no paymaster. -/
def c10Mined : MinedOp :=
  ⟨none, 0, opHashOf env0 cfgBase c10Op.uo, cfgBase.entry_point, 1, 0⟩

/-- Mine c10Op at block 3, then re-admit a byte-identical operation, so
that putting the mined one back must fail with OperationAlreadyKnown. -/
def c10Pool : PoolInner :=
  applyActions env0 cfgBase
    [.add c10Op none, .mine c10Mined 3, .add c10Op none]

/-- Two recorded attempts, both still pending on chain. -/
def c8State : TrackerState :=
  ⟨0, [⟨5, ⟨10, 1⟩, 1⟩, ⟨6, ⟨12, 2⟩, 2⟩], false, 2⟩

/-- The chain reports nonce one and no mined attempt. -/
def c8View : ChainView :=
  ⟨1, fun _ => .Pending, fun _ => none, fun _ => none⟩

/-- C5: best_operations lists the best index in stored order, that order
is max fee descending with submission id ascending on ties, and the
concrete admission of three fee-five operations then a fee-six one yields
the fee-six operation first and the fee-five ones in admission order. -/
theorem C5_best_ordering (env : Env) (cfg : PoolInnerConfig)
    (acts : List PoolAction) :
    ((applyActions env cfg acts).best_operations
        = (applyActions env cfg acts).best.map OrderedPoolOperation.po) ∧
      (applyActions env cfg acts).best.Pairwise
        (fun a b => b.uo.max_fee_per_gas < a.uo.max_fee_per_gas ∨
          (a.uo.max_fee_per_gas = b.uo.max_fee_per_gas ∧
            a.submission_id < b.submission_id)) ∧
      (applyActions env0 cfgBase
          [.add (popOf 1 5 1 0) none, .add (popOf 2 5 1 0) none,
           .add (popOf 3 5 1 0) none,
           .add (popOf 4 6 1 0) none]).best_operations
        = [popOf 4 6 1 0, popOf 1 5 1 0, popOf 2 5 1 0, popOf 3 5 1 0] := by
  obtain ⟨⟨hwf0, _, _⟩, _⟩ := applyActions_wf env cfg acts
  refine ⟨rfl, ?_, by decide⟩
  exact hwf0.bestSorted.imp fun hab => opCmp_lt_iff.mp hab

/-- C4 counterexample: with the pool full at max fees one to twenty, the
twenty-first operation with max fee two is admitted, evicting the worst
resident instead of being discarded, and best changes. -/
theorem C4_eviction_counterexample :
    (pool20.add_operation env0 (popOf 21 2 1 0) none).1
        ≠ .error .DiscardedOnInsert ∧
      (pool20.add_operation env0 (popOf 21 2 1 0) none).2.best
        ≠ pool20.best := by decide

/-- C4 (amended): a twenty-first operation tying the lowest resident max
fee of one loses the submission-id tie-break, is evicted as the worst with
DiscardedOnInsert, and the live indexes are unchanged. -/
theorem C4_eviction :
    (pool20.add_operation env0 (popOf 21 1 1 0) none).1
        = .error .DiscardedOnInsert ∧
      (pool20.add_operation env0 (popOf 21 1 1 0) none).2.by_hash
          = pool20.by_hash ∧
      (pool20.add_operation env0 (popOf 21 1 1 0) none).2.by_id
          = pool20.by_id ∧
      (pool20.add_operation env0 (popOf 21 1 1 0) none).2.best
          = pool20.best := by decide

/-- C1 counterexample: re-adding a byte-identical operation matches the
stored UserOpId with both fees below the replacement thresholds, yet the
add fails with OperationAlreadyKnown rather than the claimed
ReplacementUnderpriced with the stored fees. -/
theorem C1_counterexample :
    alookup c1Pool.by_id (popOf 1 100 10 0).uo.id = some c1Ex ∧
      (popOf 1 100 10 0).uo.max_fee_per_gas <
        increase_by_percent c1Ex.uo.max_fee_per_gas
          c1Pool.config.min_replacement_fee_increase_percentage ∧
      (popOf 1 100 10 0).uo.max_priority_fee_per_gas <
        increase_by_percent c1Ex.uo.max_priority_fee_per_gas
          c1Pool.config.min_replacement_fee_increase_percentage ∧
      (c1Pool.add_operation env0 (popOf 1 100 10 0) none).1
        = .error .OperationAlreadyKnown ∧
      (MempoolError.OperationAlreadyKnown
        ≠ .ReplacementUnderpriced c1Ex.uo.max_priority_fee_per_gas
            c1Ex.uo.max_fee_per_gas) := by decide

/-- C1 witness: the amended replacement law at the concrete scenario of a
resident operation at fees 100 and 10 replaced at fees 110 and 11. -/
theorem C1_replacement_semantics_witness :
    (∀ h, (c1Pool.add_operation env0 c1New none).1 = .ok h →
      increase_by_percent c1Ex.uo.max_priority_fee_per_gas
          c1Pool.config.min_replacement_fee_increase_percentage
        ≤ c1New.uo.max_priority_fee_per_gas ∧
      increase_by_percent c1Ex.uo.max_fee_per_gas
          c1Pool.config.min_replacement_fee_increase_percentage
        ≤ c1New.uo.max_fee_per_gas ∧
      (∃ sid, alookup (c1Pool.add_operation env0 c1New none).2.by_id
          c1New.uo.id = some ⟨c1New, sid⟩) ∧
      alookup (c1Pool.add_operation env0 c1New none).2.by_hash
          (opHashOf env0 c1Pool.config c1Ex.uo) = none ∧
      ∀ o ∈ (c1Pool.add_operation env0 c1New none).2.best, o.uo ≠ c1Ex.uo) ∧
    ((c1New.uo.max_priority_fee_per_gas <
        increase_by_percent c1Ex.uo.max_priority_fee_per_gas
          c1Pool.config.min_replacement_fee_increase_percentage ∨
      c1New.uo.max_fee_per_gas <
        increase_by_percent c1Ex.uo.max_fee_per_gas
          c1Pool.config.min_replacement_fee_increase_percentage) →
      c1Pool.add_operation env0 c1New none
        = (.error (.ReplacementUnderpriced c1Ex.uo.max_priority_fee_per_gas
            c1Ex.uo.max_fee_per_gas), c1Pool)) :=
  C1_replacement_semantics (by decide) c1New none (by decide) (by decide)

/-- C6 witness: the throttle characterization at the five-operation
scenario at head 100 with keep budget two and ten live blocks; the
returned hashes are those of the stale operations at blocks 80 and 85 and
of the over-budget one at block 99. -/
theorem C6_throttle_entity_witness :
    ((c6Pool.throttle_entity env0 entityP 100).1
        = ((c6Pool.best.filter (throttleRemoves c6Pool.config entityP 100
              c6Pool.best c6Pool.config.throttled_entity_mempool_count)).map
            (hashOfOp env0 c6Pool.config)) ∧
      ∀ o, o ∈ (c6Pool.throttle_entity env0 entityP 100).2.best ↔
        (o ∈ c6Pool.best ∧
          throttleRemoves c6Pool.config entityP 100 c6Pool.best
            c6Pool.config.throttled_entity_mempool_count o = false)) ∧
    (c6Pool.throttle_entity env0 entityP 100).1
      = [opHashOf env0 cfgBase (popP 1 5 1 80).uo,
         opHashOf env0 cfgBase (popP 2 5 1 85).uo,
         opHashOf env0 cfgBase (popP 5 5 1 99).uo] :=
  ⟨C6_throttle_entity (by decide) entityP 100, by decide⟩

/-- C7 witness: a full two-operation pool with paymaster reservations
discards a low-fee arrival on insert and afterwards records no cost for
it, with the ledger consistent. -/
theorem C7_discarded_on_insert_witness :
    alookup (c7Pool.add_operation env0 (popP 3 1 1 0)
          (some ⟨50, 1000⟩)).2.by_hash
        (opHashOf env0 c7Pool.config (popP 3 1 1 0).uo) = none ∧
      alookup (c7Pool.add_operation env0 (popP 3 1 1 0)
          (some ⟨50, 1000⟩)).2.by_id (popP 3 1 1 0).uo.id = none ∧
      (∀ o ∈ (c7Pool.add_operation env0 (popP 3 1 1 0)
          (some ⟨50, 1000⟩)).2.best, o.uo ≠ (popP 3 1 1 0).uo) ∧
      alookup (c7Pool.add_operation env0 (popP 3 1 1 0)
          (some ⟨50, 1000⟩)).2.paymaster_balances.op_costs
        (popP 3 1 1 0).uo.id = none ∧
      PTWF (c7Pool.add_operation env0 (popP 3 1 1 0)
          (some ⟨50, 1000⟩)).2.paymaster_balances :=
  C7_discarded_on_insert (by decide) (popP 3 1 1 0) (some ⟨50, 1000⟩)
    (by decide)

/-- C8 witness: the tracker at nonce zero with two pending attempts sees
external nonce one; the state resets and, with no attempt mined, the
update is NonceUsedForOtherTx zero. -/
theorem C8_nonce_advanced_witness :
    (TrackerState.check_for_update_now c8View c8State).2
        = ⟨1, [], false, 0⟩ ∧
      ((∀ tx ∈ c8State.transactions, ∀ bn,
          c8View.tx_status tx.tx_hash ≠ .Mined bn) →
        (TrackerState.check_for_update_now c8View c8State).1
          = some (.NonceUsedForOtherTx c8State.nonce)) ∧
      (∀ pre tx post bn, c8State.transactions = pre ++ tx :: post →
        (∀ tx2 ∈ post, ∀ bn2, c8View.tx_status tx2.tx_hash ≠ .Mined bn2) →
        c8View.tx_status tx.tx_hash = .Mined bn →
        (TrackerState.check_for_update_now c8View c8State).1
          = some (.Mined tx.tx_hash c8State.nonce bn tx.attempt_number
              (c8View.tx_gas_limit tx.tx_hash)
              (c8View.tx_gas_used tx.tx_hash))) :=
  C8_nonce_advanced (by decide)

/-- C10 witness: unmining a cached mined operation whose byte-identical
twin was re-admitted clears both cache indexes and returns the original
operation although the put back fails, leaving best unchanged. -/
theorem C10_unmine_returns_witness :
    ((c10Pool.unmine_operation env0 c10Mined).1
        = some (⟨c10Op, 0⟩ : OrderedPoolOperation).po ∧
      (c10Pool.unmine_operation env0 c10Mined).2.mined_at_block_number_by_hash
        = aerase c10Mined.hash c10Pool.mined_at_block_number_by_hash ∧
      (c10Pool.unmine_operation env0 c10Mined).2.mined_hashes_with_block_numbers
        = c10Pool.mined_hashes_with_block_numbers.filter
            (fun p => decide (p ≠ (3, c10Mined.hash)))) ∧
    (c10Pool.unmine_operation env0 c10Mined).2.best = c10Pool.best :=
  ⟨C10_unmine_returns (by decide), by decide⟩

end Rundler
